import Mathlib

/-!
Verification of the disassembly rendering engine and glossary linker
(`generator/disassembly.py`, `generator/glossary.py`).

Strings are modelled as `List Char`; Python `int` as `Int`/`ℕ` with the
source's arithmetic made explicit.  Each Python function is embedded under
its source name (leading underscores dropped, since Lean reserves them).
-/

abbrev Str := List Char

/-! ## Address Index (`_resolve_addr`, disassembly.py 648-659)

`process_disassembly` builds `valid_addrs = set(item addresses)` and
`sorted_addrs = sorted(valid_addrs)`.  We model Python `sorted` by insertion
sort (`sortAsc`) over the deduplicated address list; set membership is list
membership. -/

/-- Insert `x` into an ascending list, keeping it ascending. -/
def insertSorted (x : ℕ) : List ℕ → List ℕ
  | [] => [x]
  | y :: ys => if x ≤ y then x :: y :: ys else y :: insertSorted x ys

/-- Model of Python `sorted` on a list of addresses. -/
def sortAsc (l : List ℕ) : List ℕ := l.foldr insertSorted []

/-- `sorted_addrs` as built in `process_disassembly`: `sorted(set(addrs))`. -/
def sortedAddrs (itemAddrs : List ℕ) : List ℕ := sortAsc itemAddrs.dedup

/-- `bisect.bisect_right(sorted_list, x)`: on an ascending list this is the
number of elements `≤ x` (the insertion point after any run of `x`s). -/
def bisect_right (l : List ℕ) (x : ℕ) : ℕ := l.countP (fun v => v ≤ x)

/-- `_resolve_addr(addr, valid_addrs, sorted_addrs)` (disassembly.py 648-659). -/
def resolve_addr (addr : ℕ) (validAddrs : List ℕ) (sorted_addrs : List ℕ) :
    Option ℕ :=
  if addr ∈ validAddrs then some addr
  else
    let idx := bisect_right sorted_addrs addr
    if idx > 0 then some (sorted_addrs.getD (idx - 1) 0) else none

theorem mem_insertSorted {a x : ℕ} {l : List ℕ} :
    a ∈ insertSorted x l ↔ a = x ∨ a ∈ l := by
  induction l with
  | nil => simp [insertSorted]
  | cons y ys ih =>
    by_cases h : x ≤ y
    · simp [insertSorted, h]
    · simp [insertSorted, h, ih]
      tauto

theorem sorted_insertSorted {x : ℕ} {l : List ℕ}
    (hl : l.Sorted (· ≤ ·)) : (insertSorted x l).Sorted (· ≤ ·) := by
  induction l with
  | nil => simp [insertSorted]
  | cons y ys ih =>
    rw [List.sorted_cons] at hl
    obtain ⟨hy, hys⟩ := hl
    by_cases h : x ≤ y
    · rw [insertSorted, if_pos h, List.sorted_cons]
      refine ⟨?_, ?_⟩
      · intro b hb
        rcases List.mem_cons.mp hb with rfl | hb
        · exact h
        · exact le_trans h (hy b hb)
      · rw [List.sorted_cons]; exact ⟨hy, hys⟩
    · rw [insertSorted, if_neg h, List.sorted_cons]
      refine ⟨?_, ih hys⟩
      intro b hb
      rcases mem_insertSorted.mp hb with rfl | hb
      · omega
      · exact hy b hb

theorem sorted_sortAsc (l : List ℕ) : (sortAsc l).Sorted (· ≤ ·) := by
  induction l with
  | nil => simp [sortAsc]
  | cons x xs ih => exact sorted_insertSorted ih

theorem mem_sortAsc {a : ℕ} {l : List ℕ} : a ∈ sortAsc l ↔ a ∈ l := by
  induction l with
  | nil => simp [sortAsc]
  | cons x xs ih =>
    simp only [sortAsc, List.foldr_cons] at *
    rw [mem_insertSorted, ih, List.mem_cons]

theorem mem_sortedAddrs {a : ℕ} {l : List ℕ} :
    a ∈ sortedAddrs l ↔ a ∈ l := by
  rw [sortedAddrs, mem_sortAsc, List.mem_dedup]

/-- In an ascending list, when `bisect_right` is positive, the element just
before the insertion point is the greatest element `≤ a`. -/
theorem bisect_right_last {l : List ℕ} {a : ℕ} (hs : l.Sorted (· ≤ ·))
    (hc : 0 < bisect_right l a) :
    l.getD (bisect_right l a - 1) 0 ∈ l ∧ l.getD (bisect_right l a - 1) 0 ≤ a ∧
      ∀ v ∈ l, v ≤ a → v ≤ l.getD (bisect_right l a - 1) 0 := by
  induction l with
  | nil => simp [bisect_right] at hc
  | cons x xs ih =>
    rw [List.sorted_cons] at hs
    obtain ⟨hx, hxs⟩ := hs
    by_cases hxa : x ≤ a
    · have hcnt : bisect_right (x :: xs) a = bisect_right xs a + 1 := by
        simp [bisect_right, hxa]
      rcases Nat.eq_zero_or_pos (bisect_right xs a) with h0 | hpos
      · have hnone : ∀ v ∈ xs, ¬ v ≤ a := by
          intro v hv hva
          have := List.countP_eq_zero.mp h0 v hv
          simp [hva] at this
        refine ⟨?_, ?_, ?_⟩
        · simp [hcnt, h0]
        · simp [hcnt, h0, hxa]
        · intro v hv hva
          rcases List.mem_cons.mp hv with rfl | hv
          · simp [hcnt, h0]
          · exact absurd hva (hnone v hv)
      · obtain ⟨hmem, hle, hmax⟩ := ih hxs hpos
        have hidx : bisect_right (x :: xs) a - 1 = (bisect_right xs a - 1) + 1 := by
          omega
        have hget : (x :: xs).getD (bisect_right (x :: xs) a - 1) 0 =
            xs.getD (bisect_right xs a - 1) 0 := by
          rw [hidx]; rfl
        refine ⟨?_, ?_, ?_⟩
        · rw [hget]; exact List.mem_cons_of_mem x hmem
        · rw [hget]; exact hle
        · intro v hv hva
          rw [hget]
          rcases List.mem_cons.mp hv with rfl | hv
          · exact hx _ hmem
          · exact hmax v hv hva
    · exfalso
      have : bisect_right (x :: xs) a = 0 := by
        rw [bisect_right, List.countP_eq_zero]
        intro v hv
        rcases List.mem_cons.mp hv with rfl | hv
        · simpa using hxa
        · have : x ≤ v := hx v hv
          simp only [decide_eq_true_eq]
          omega
      omega

theorem bisect_right_eq_zero {l : List ℕ} {a : ℕ}
    (hc : bisect_right l a = 0) : ∀ v ∈ l, a < v := by
  intro v hv
  have := List.countP_eq_zero.mp hc v hv
  simp only [decide_eq_true_eq] at this
  omega

/-- C1: Nearest-anchor resolution.  For an index built from the item address
list: a valid queried address resolves to itself; an invalid one with some
valid address below it resolves to the greatest valid address strictly less
than it; and an address with no valid predecessor resolves to nothing. -/
theorem resolve_addr_nearest (itemAddrs : List ℕ) (a : ℕ) :
    (a ∈ itemAddrs → resolve_addr a itemAddrs (sortedAddrs itemAddrs) = some a)
  ∧ (a ∉ itemAddrs → (∃ v ∈ itemAddrs, v < a) →
      ∃ g, resolve_addr a itemAddrs (sortedAddrs itemAddrs) = some g ∧
        g ∈ itemAddrs ∧ g < a ∧ ∀ v ∈ itemAddrs, v < a → v ≤ g)
  ∧ (a ∉ itemAddrs → (∀ v ∈ itemAddrs, ¬ v < a) →
      resolve_addr a itemAddrs (sortedAddrs itemAddrs) = none) := by
  refine ⟨fun h => by simp [resolve_addr, h], ?_, ?_⟩
  · intro hnot ⟨v, hv, hva⟩
    have hsorted := sorted_sortAsc itemAddrs.dedup
    have hvmem : v ∈ sortedAddrs itemAddrs := mem_sortedAddrs.mpr hv
    have hcpos : 0 < bisect_right (sortedAddrs itemAddrs) a := by
      rw [bisect_right]
      rcases Nat.eq_zero_or_pos ((sortedAddrs itemAddrs).countP (fun x => x ≤ a))
        with h0 | hpos
      · exact absurd (bisect_right_eq_zero h0 v hvmem) (by omega)
      · exact hpos
    obtain ⟨hmem, hle, hmax⟩ := @bisect_right_last (sortedAddrs itemAddrs) a hsorted hcpos
    set g := (sortedAddrs itemAddrs).getD (bisect_right (sortedAddrs itemAddrs) a - 1) 0 with hg
    have hgmem : g ∈ itemAddrs := mem_sortedAddrs.mp hmem
    have hgne : g ≠ a := fun h => hnot (h ▸ hgmem)
    refine ⟨g, ?_, hgmem, lt_of_le_of_ne hle hgne, ?_⟩
    · simp only [resolve_addr, hnot, if_false]
      simp only [if_pos hcpos]
    · intro w hw hwa
      exact hmax w (mem_sortedAddrs.mpr hw) (le_of_lt hwa)
  · intro hnot hnone
    have hzero : bisect_right (sortedAddrs itemAddrs) a = 0 := by
      rw [bisect_right, List.countP_eq_zero]
      intro w hw
      have hwmem : w ∈ itemAddrs := mem_sortedAddrs.mp hw
      have h1 : ¬ w < a := hnone w hwmem
      have h2 : w ≠ a := fun h => hnot (h ▸ hwmem)
      simp only [decide_eq_true_eq]
      omega
    simp [resolve_addr, hnot, hzero]

/-- Concrete instantiation of C1: address 1 precedes every valid address
in `[2, 5, 9]`, so resolution returns nothing. -/
theorem resolve_addr_nearest_witness :
    resolve_addr 1 [2, 5, 9] (sortedAddrs [2, 5, 9]) = none :=
  (resolve_addr_nearest [2, 5, 9] 1).2.2 (by decide) (by decide)

/-! ## Text Wrapper (`_find_break_position` / `_wrap_text`, disassembly.py
173-236)

Budgets are Python ints, so they are `Int` here.  The continuation budget
`max(1, max_width - continuation_indent)` is at least 1 and is carried as a
`ℕ`. -/

/-- Width of the full-width content column (disassembly.py 9). -/
def CONTENT_MAX_WIDTH : Int := 64

/-- Width of the content column in relocated sections (disassembly.py 10). -/
def RELOCATED_MAX_WIDTH : Int := 58

/-- The separator characters preferred by `_find_break_position`. -/
def punctChars : List Char := ['|', '_', '/', '-']

/-- First loop of `_find_break_position`: scan positions `k, k-1, …, 1` of
`word` for a separator character and return the position just after it. -/
def findPunctDown (word : Str) : ℕ → Option ℕ
  | 0 => none
  | i + 1 =>
    if word.getD (i + 1) ' ' ∈ punctChars then some (i + 2)
    else findPunctDown word i

/-- The character-class transition test of `_find_break_position`
(Python `str.isalpha` / `str.isdigit`, modelled on ASCII). -/
def classDiff (a b : Char) : Bool :=
  (a.isAlpha != b.isAlpha) || (a.isDigit != b.isDigit)

/-- Second loop of `_find_break_position`: scan positions `k, k-1, …, 1` for
a class transition between `word[i-1]` and `word[i]` and return it. -/
def findTransDown (word : Str) : ℕ → Option ℕ
  | 0 => none
  | i + 1 =>
    if classDiff (word.getD i ' ') (word.getD (i + 1) ' ') then some (i + 1)
    else findTransDown word i

/-- `_find_break_position(word, budget)` (disassembly.py 173-200).  The
source clamps a non-positive budget to 1, then searches backward from
`min(budget, len(word))` for a separator, then a class transition, falling
back to the exact boundary. -/
def find_break_position (word : Str) (budget : Int) : ℕ :=
  let b : ℕ := if budget ≤ 0 then 1 else budget.toNat
  let m := min b word.length
  match findPunctDown word (m - 1) with
  | some p => p
  | none =>
    match findTransDown word (m - 1) with
    | some p => p
    | none => m

theorem findPunctDown_bounds {word : Str} :
    ∀ {k p : ℕ}, findPunctDown word k = some p → 2 ≤ p ∧ p ≤ k + 1 := by
  intro k
  induction k with
  | zero => intro p h; simp [findPunctDown] at h
  | succ i ih =>
    intro p h
    rw [findPunctDown] at h
    split at h
    · cases h; omega
    · have := ih h; omega

theorem findTransDown_bounds {word : Str} :
    ∀ {k p : ℕ}, findTransDown word k = some p → 1 ≤ p ∧ p ≤ k := by
  intro k
  induction k with
  | zero => intro p h; simp [findTransDown] at h
  | succ i ih =>
    intro p h
    rw [findTransDown] at h
    split at h
    · cases h; omega
    · have := ih h; omega

theorem find_break_position_le (word : Str) (budget : Int) :
    find_break_position word budget ≤ word.length ∧
      ((find_break_position word budget : ℕ) : Int) ≤ max 1 budget := by
  rw [find_break_position]
  set b : ℕ := if budget ≤ 0 then 1 else budget.toNat with hb
  set m := min b word.length with hm
  have hmlen : m ≤ word.length := min_le_right _ _
  have hmb : m ≤ b := min_le_left _ _
  have hbInt : (b : Int) ≤ max 1 budget := by
    rw [hb]
    split
    · simp
    · have h0 : 0 < budget := by omega
      have : (budget.toNat : Int) = budget := Int.toNat_of_nonneg (by omega)
      rw [this]
      exact le_max_right _ _
  have key : ∀ p : ℕ, p ≤ m → p ≤ word.length ∧ ((p : ℕ) : Int) ≤ max 1 budget := by
    intro p hp
    constructor
    · omega
    · calc ((p : ℕ) : Int) ≤ (b : Int) := by exact_mod_cast le_trans hp hmb
        _ ≤ max 1 budget := hbInt
  split
  · next p hp =>
    apply key
    have := findPunctDown_bounds hp
    rcases Nat.eq_zero_or_pos m with h0 | h1
    · rw [h0] at hp; simp [findPunctDown] at hp
    · omega
  · split
    · next p hp =>
      apply key
      have := findTransDown_bounds hp
      omega
    · exact key m le_rfl

theorem find_break_position_pos {word : Str} (hw : word ≠ []) (budget : Int) :
    1 ≤ find_break_position word budget := by
  rw [find_break_position]
  set b : ℕ := if budget ≤ 0 then 1 else budget.toNat with hb
  have hb1 : 1 ≤ b := by
    rw [hb]; split
    · omega
    · omega
  have hlen : 1 ≤ word.length := List.length_pos.mpr hw
  have hm : 1 ≤ min b word.length := le_min hb1 hlen
  split
  · next p hp => have := findPunctDown_bounds hp; omega
  · split
    · next p hp => have := findTransDown_bounds hp; omega
    · exact hm

/-- The word-splitting `while` loop of `_wrap_text` from the point where the
active budget is the continuation budget (the loop body reassigns
`budget = continuation_budget` after every iteration).  Returns the emitted
fragments and the remaining word. -/
def breakWordCont (cont : ℕ) (word : Str) : List Str × Str :=
  if _h : word.length > cont then
    let pos := find_break_position word (cont : Int)
    let r := breakWordCont cont (word.drop pos)
    (word.take pos :: r.1, r.2)
  else ([], word)
termination_by word.length
decreasing_by
  simp only [List.length_drop]
  have h1 : 1 ≤ find_break_position word (cont : Int) :=
    find_break_position_pos (List.length_pos.mp (by omega)) _
  omega

/-- The word-splitting `while` loop of `_wrap_text`, entered with whatever
budget is active when the word is reached (after the first iteration the
budget becomes the continuation budget). -/
def breakWordFirst (b0 : Int) (cont : ℕ) (word : Str) : List Str × Str :=
  if (word.length : Int) > b0 then
    let pos := find_break_position word b0
    let r := breakWordCont cont (word.drop pos)
    (word.take pos :: r.1, r.2)
  else ([], word)

/-- The `for word in words` loop of `_wrap_text`.  `current` is the line
being accumulated, `acc` the already-emitted `result_lines`; the active
budget is `first_line_budget` while `result_lines` is empty and the
continuation budget afterwards. -/
def wrapGo (fb : Int) (cont : ℕ) : List Str → Str → List Str → List Str
  | [], current, acc => if current ≠ [] then acc ++ [current] else acc
  | w :: ws, current, acc =>
    let budget : Int := if acc = [] then fb else (cont : Int)
    let candidate := if current = [] then w else current ++ ' ' :: w
    if (candidate.length : Int) ≤ budget then wrapGo fb cont ws candidate acc
    else
      let budget2 : Int := if current = [] then budget else (cont : Int)
      let acc2 := if current = [] then acc else acc ++ [current]
      let r := breakWordFirst budget2 cont w
      wrapGo fb cont ws r.2 (acc2 ++ r.1)

/-- `_wrap_text(text, first_line_budget, continuation_indent, max_width)`
(disassembly.py 203-236). -/
def wrap_text (text : Str) (first_line_budget : Int)
    (continuation_indent : Int) (max_width : Int) : List Str :=
  let contB : ℕ := (max 1 (max_width - continuation_indent)).toNat
  let res := wrapGo first_line_budget contB (List.splitOn ' ' text) [] []
  if res = [] then [[]] else res

/-- The per-line budget bound: the line at offset `off` of the output is
bounded by the clamped first-line budget when `off = 0` and by the
continuation budget otherwise. -/
def linesOK (fb : Int) (cont : ℕ) : ℕ → List Str → Prop
  | _, [] => True
  | off, l :: ls =>
    ((l.length : Int) ≤ if off = 0 then max 1 fb else (cont : Int)) ∧
      linesOK fb cont (off + 1) ls

theorem linesOK_append {fb : Int} {cont : ℕ} :
    ∀ {a b : List Str} {off : ℕ}, linesOK fb cont off a →
      linesOK fb cont (off + a.length) b → linesOK fb cont off (a ++ b) := by
  intro a
  induction a with
  | nil => intro b off _ hb; simpa using hb
  | cons x xs ih =>
    intro b off ha hb
    obtain ⟨hx, hxs⟩ := ha
    refine ⟨hx, ih hxs ?_⟩
    have : off + 1 + xs.length = off + (xs.length + 1) := by omega
    rw [this]
    simpa [List.length_cons] using hb

theorem linesOK_get {fb : Int} {cont : ℕ} :
    ∀ {ls : List Str} {off : ℕ}, linesOK fb cont off ls →
      ∀ i l, ls.get? i = some l →
        (l.length : Int) ≤ if off + i = 0 then max 1 fb else (cont : Int) := by
  intro ls
  induction ls with
  | nil => intro off _ i l h; simp at h
  | cons x xs ih =>
    intro off hok i l h
    obtain ⟨hx, hxs⟩ := hok
    cases i with
    | zero =>
      rw [List.get?_cons_zero] at h
      cases h
      simp only [Nat.add_zero]
      exact hx
    | succ j =>
      rw [List.get?_cons_succ] at h
      have hres := ih hxs j l h
      rw [if_neg (by omega)] at hres
      rw [if_neg (by omega)]
      exact hres

theorem linesOK_nil (fb : Int) (cont : ℕ) (off : ℕ) : linesOK fb cont off [] := by
  rw [linesOK]
  trivial

theorem max_one_cont {cont : ℕ} (hcont : 1 ≤ cont) :
    max 1 ((cont : ℕ) : Int) = (cont : Int) :=
  max_eq_right (by exact_mod_cast hcont)

theorem max_fb_le {fb : Int} : max fb 0 ≤ max 1 fb :=
  max_le (le_max_right 1 fb) (le_trans zero_le_one (le_max_left 1 fb))

theorem breakWordCont_spec (cont : ℕ) (hcont : 1 ≤ cont) (word : Str) :
    (∀ l ∈ (breakWordCont cont word).1, (l.length : Int) ≤ (cont : Int)) ∧
      ((breakWordCont cont word).2.length : Int) ≤ (cont : Int) := by
  refine breakWordCont.induct cont
    (fun w => (∀ l ∈ (breakWordCont cont w).1, (l.length : Int) ≤ (cont : Int)) ∧
      ((breakWordCont cont w).2.length : Int) ≤ (cont : Int)) ?_ ?_ word
  · intro w hgt pos ih
    constructor
    · intro l hl
      rw [breakWordCont, dif_pos hgt] at hl
      simp only at hl
      rcases List.mem_cons.mp hl with rfl | hl
      · have hle := find_break_position_le w ((cont : ℕ) : Int)
        rw [List.length_take, min_eq_left hle.1]
        calc ((find_break_position w ((cont : ℕ) : Int) : ℕ) : Int)
            ≤ max 1 (cont : Int) := hle.2
          _ = (cont : Int) := max_one_cont hcont
      · exact ih.1 l hl
    · rw [breakWordCont, dif_pos hgt]
      exact ih.2
  · intro w hgt
    constructor
    · intro l hl
      rw [breakWordCont, dif_neg hgt] at hl
      simp at hl
    · rw [breakWordCont, dif_neg hgt]
      simp only
      omega

theorem linesOK_all_cont {fb : Int} {cont : ℕ} :
    ∀ {ls : List Str} {off : ℕ}, off ≠ 0 →
      (∀ l ∈ ls, (l.length : Int) ≤ (cont : Int)) → linesOK fb cont off ls := by
  intro ls
  induction ls with
  | nil => intro off _ _; exact linesOK_nil _ _ _
  | cons x xs ih =>
    intro off hoff hall
    rw [linesOK]
    refine ⟨?_, ih (by omega) fun l hl => hall l (List.mem_cons_of_mem _ hl)⟩
    rw [if_neg hoff]
    exact hall x (List.mem_cons_self x xs)

theorem linesOK_flush {fb : Int} {cont : ℕ} {acc : List Str} {current : Str}
    (hacc : linesOK fb cont 0 acc)
    (hcur : (current.length : Int) ≤ if acc = [] then max fb 0 else (cont : Int)) :
    linesOK fb cont 0 (acc ++ [current]) := by
  apply linesOK_append hacc
  rw [linesOK]
  refine ⟨?_, linesOK_nil _ _ _⟩
  by_cases ha : acc = []
  · subst ha
    rw [if_pos (by simp)]
    rw [if_pos rfl] at hcur
    exact le_trans hcur max_fb_le
  · rw [if_neg (by have := List.length_pos.mpr ha; omega)]
    rw [if_neg ha] at hcur
    exact hcur

/-- Effect of the overflow branch of the word loop: flushing has already
happened (`a2` is the emitted-lines list, `b2` the budget the `while` loop
starts with), and the split fragments plus the remaining word satisfy the
line bounds. -/
theorem wrapGo_over {fb : Int} {cont : ℕ} (hcont : 1 ≤ cont)
    (b2 : Int) (a2 : List Str) (w : Str)
    (hok : linesOK fb cont 0 a2)
    (hb2 : a2 = [] → b2 = fb)
    (hb2c : a2 ≠ [] → b2 = (cont : Int)) :
    linesOK fb cont 0 (a2 ++ (breakWordFirst b2 cont w).1) ∧
      (((breakWordFirst b2 cont w).2.length : Int) ≤
        if a2 ++ (breakWordFirst b2 cont w).1 = [] then max fb 0
        else (cont : Int)) := by
  by_cases hw : ((w.length : Int) > b2)
  · rw [breakWordFirst, if_pos hw]
    simp only
    constructor
    · apply linesOK_append hok
      rw [linesOK]
      constructor
      · have hle := find_break_position_le w b2
        rw [List.length_take, min_eq_left hle.1]
        by_cases hA : a2 = []
        · rw [if_pos (by simp [hA])]
          calc ((find_break_position w b2 : ℕ) : Int) ≤ max 1 b2 := hle.2
            _ = max 1 fb := by rw [hb2 hA]
        · rw [if_neg (by have := List.length_pos.mpr hA; omega)]
          calc ((find_break_position w b2 : ℕ) : Int) ≤ max 1 b2 := hle.2
            _ = (cont : Int) := by rw [hb2c hA, max_one_cont hcont]
      · exact linesOK_all_cont (by omega)
          fun l hl => (breakWordCont_spec cont hcont _).1 l hl
    · rw [if_neg (by simp)]
      exact (breakWordCont_spec cont hcont _).2
  · rw [breakWordFirst, if_neg hw]
    simp only [List.append_nil]
    push_neg at hw
    refine ⟨hok, ?_⟩
    by_cases hA : a2 = []
    · rw [if_pos hA]
      calc (w.length : Int) ≤ b2 := hw
        _ = fb := hb2 hA
        _ ≤ max fb 0 := le_max_left _ _
    · rw [if_neg hA]
      calc (w.length : Int) ≤ b2 := hw
        _ = (cont : Int) := hb2c hA

/-- Invariant of the `for word in words` loop: if the emitted lines satisfy
their budgets and the accumulating line fits its active budget, all lines of
the final result satisfy their budgets. -/
theorem wrapGo_ok {fb : Int} {cont : ℕ} (hcont : 1 ≤ cont) :
    ∀ (words : List Str) (current : Str) (acc : List Str),
      linesOK fb cont 0 acc →
      ((current.length : Int) ≤ if acc = [] then max fb 0 else (cont : Int)) →
      linesOK fb cont 0 (wrapGo fb cont words current acc) := by
  intro words
  induction words with
  | nil =>
    intro current acc hacc hcur
    simp only [wrapGo]
    split
    · exact linesOK_flush hacc hcur
    · exact hacc
  | cons w ws ih =>
    intro current acc hacc hcur
    simp only [wrapGo]
    by_cases hfit :
        (((if current = [] then w else current ++ ' ' :: w).length : Int) ≤
          (if acc = [] then fb else (cont : Int)))
    · rw [if_pos hfit]
      apply ih _ _ hacc
      by_cases ha : acc = []
      · rw [if_pos ha] at hfit ⊢
        exact le_trans hfit (le_max_left fb 0)
      · rw [if_neg ha] at hfit ⊢
        exact hfit
    · rw [if_neg hfit]
      have hok : linesOK fb cont 0 (if current = [] then acc else acc ++ [current]) := by
        by_cases hc : current = []
        · rw [if_pos hc]; exact hacc
        · rw [if_neg hc]; exact linesOK_flush hacc hcur
      have hb2 : (if current = [] then acc else acc ++ [current]) = [] →
          (if current = [] then (if acc = [] then fb else (cont : Int))
            else (cont : Int)) = fb := by
        intro hA
        by_cases hc : current = []
        · rw [if_pos hc] at hA ⊢
          rw [if_pos hA]
        · rw [if_neg hc] at hA
          exact absurd hA (by simp)
      have hb2c : (if current = [] then acc else acc ++ [current]) ≠ [] →
          (if current = [] then (if acc = [] then fb else (cont : Int))
            else (cont : Int)) = (cont : Int) := by
        intro hA
        by_cases hc : current = []
        · rw [if_pos hc] at hA ⊢
          rw [if_neg hA]
        · rw [if_neg hc]
      have hover := wrapGo_over hcont _ _ w hok hb2 hb2c
      exact ih _ _ hover.1 hover.2

/-- C2: Wrap width bound.  Every line returned by
`_wrap_text(text, first_line_budget, continuation_indent, max_width)` is
within its applicable budget — the first line within `first_line_budget`,
every later line within `max_width - continuation_indent`, each budget
clamped below at 1; this covers the fragments of forcibly split words. -/
theorem wrap_text_budget (text : Str) (fb ci mw : Int) :
    ∀ i l, (wrap_text text fb ci mw).get? i = some l →
      (l.length : Int) ≤ if i = 0 then max 1 fb else max 1 (mw - ci) := by
  intro i l hl
  rw [wrap_text] at hl
  set cont := (max 1 (mw - ci)).toNat with hcont_def
  have hpos : (0 : Int) ≤ max 1 (mw - ci) := le_trans zero_le_one (le_max_left _ _)
  have hcast : ((cont : ℕ) : Int) = max 1 (mw - ci) := by
    rw [hcont_def]; exact Int.toNat_of_nonneg hpos
  have hcont1 : 1 ≤ cont := by
    have h1 : ((1 : Int)).toNat ≤ (max 1 (mw - ci)).toNat :=
      Int.toNat_le_toNat (le_max_left _ _)
    rw [hcont_def]
    exact h1
  split at hl
  · cases i with
    | zero =>
      rw [List.get?_cons_zero] at hl
      cases hl
      rw [if_pos rfl]
      simp only [List.length_nil, Nat.cast_zero]
      exact le_trans zero_le_one (le_max_left _ _)
    | succ j =>
      rw [List.get?_cons_succ] at hl
      simp at hl
  · have hok := @wrapGo_ok fb cont hcont1 (List.splitOn ' ' text) [] []
      (linesOK_nil fb cont 0) (by simp)
    have hbound := linesOK_get hok i l hl
    by_cases hi : i = 0
    · rw [if_pos hi]
      rw [if_pos (by omega)] at hbound
      exact hbound
    · rw [if_neg hi]
      rw [if_neg (by omega)] at hbound
      rw [← hcast]
      exact hbound

/-- Concrete instantiation of C2: wrapping `"ab cd"` to a width-2 budget
puts `"cd"` on the second line, within the continuation budget. -/
theorem wrap_text_budget_witness :
    (("cd".data.length : ℕ) : Int) ≤
      if (1 : ℕ) = 0 then max 1 2 else max 1 ((2 : Int) - 0) :=
  wrap_text_budget "ab cd".data 2 0 2 1 "cd".data (by decide)

/-! ## HTML text model

`markupsafe.escape` escapes the five characters `& < > ' "`;
`html.unescape` is modelled on exactly the entity alphabet the renderer ever
emits (`&amp; &lt; &gt; &#34; &#39;` from `markupsafe.escape` plus the
literal `&quot;` written by `_render_string`, disassembly.py 716-721 —
every `&` in rendered markup begins one of these six complete entities);
`re.sub(r"<[^>]+>", "", s)` is modelled by a character automaton that
buffers a pending tag. -/

/-- `markupsafe.escape` on one character. -/
def escapeChar (c : Char) : Str :=
  if c = '&' then ['&', 'a', 'm', 'p', ';']
  else if c = '<' then ['&', 'l', 't', ';']
  else if c = '>' then ['&', 'g', 't', ';']
  else if c = '\'' then ['&', '#', '3', '9', ';']
  else if c = '"' then ['&', '#', '3', '4', ';']
  else [c]

/-- `markupsafe.escape` / `str(escape(...))` on a string. -/
def escapeList : Str → Str
  | [] => []
  | c :: rest => escapeChar c ++ escapeList rest

/-- The entities the renderer emits: the five `markupsafe.escape`
produces, plus the `&quot;` written literally by `_render_string`. -/
def entStrs : List Str :=
  [['&', 'a', 'm', 'p', ';'], ['&', 'l', 't', ';'], ['&', 'g', 't', ';'],
   ['&', '#', '3', '4', ';'], ['&', '#', '3', '9', ';'],
   ['&', 'q', 'u', 'o', 't', ';']]

/-- Decode one complete entity from `entStrs`. -/
def decodeEnt (p : Str) : Char :=
  if p = ['&', 'a', 'm', 'p', ';'] then '&'
  else if p = ['&', 'l', 't', ';'] then '<'
  else if p = ['&', 'g', 't', ';'] then '>'
  else if p = ['&', '#', '3', '4', ';'] then '"'
  else if p = ['&', 'q', 'u', 'o', 't', ';'] then '"'
  else '\''

/-- Boolean prefix test. -/
def isPrefixL : Str → Str → Bool
  | [], _ => true
  | _ :: _, [] => false
  | a :: as, b :: bs => a == b && isPrefixL as bs

/-- Is `p` a prefix of one of the entities? -/
def prefixAny (p : Str) : Bool := entStrs.any (fun e => isPrefixL p e)

/-- Entity-decoding automaton: `pend` is the pending (proper) prefix of an
entity seen so far.  A pending run that fails to complete is flushed
literally, exactly as Python leaves an unknown `&`-sequence unchanged. -/
def unescapeGo (pend : Str) : Str → Str
  | [] => pend
  | c :: rest =>
    if pend ++ [c] ∈ entStrs then decodeEnt (pend ++ [c]) :: unescapeGo [] rest
    else if prefixAny (pend ++ [c]) then unescapeGo (pend ++ [c]) rest
    else if c = '&' then pend ++ unescapeGo ['&'] rest
    else pend ++ (c :: unescapeGo [] rest)

/-- Model of `html.unescape` on the renderer's entity alphabet. -/
def unescape (s : Str) : Str := unescapeGo [] s

/-- Every `&` of the string begins one of the complete entities
(the shape of all rendered markup; lets entity decoding distribute over
concatenation). -/
def entOkGo (pend : Str) : Str → Bool
  | [] => pend = []
  | c :: rest =>
    if pend ++ [c] ∈ entStrs then entOkGo [] rest
    else if prefixAny (pend ++ [c]) then entOkGo (pend ++ [c]) rest
    else if c = '&' then false
    else if pend = [] then entOkGo [] rest
    else false

def entOk (s : Str) : Bool := entOkGo [] s

/-- Tag-stripping automaton modelling `re.sub(r"<[^>]+>", "", s)`:
on `<` start buffering; a later `>` with a non-empty buffer deletes the
span; `<>` matches nothing and is emitted; an unterminated `<…` is emitted
literally at the end of the input. -/
def stripTagsGo : Option Str → Str → Str
  | none, [] => []
  | some p, [] => '<' :: p
  | none, c :: rest =>
    if c = '<' then stripTagsGo (some []) rest
    else c :: stripTagsGo none rest
  | some p, c :: rest =>
    if c = '>' then
      if p = [] then '<' :: '>' :: stripTagsGo none rest
      else stripTagsGo none rest
    else stripTagsGo (some (p ++ [c])) rest

def stripTags (s : Str) : Str := stripTagsGo none s

/-- The visible text of a markup string: tags stripped, then entities
decoded (the two reductions `_visible_width` applies, disassembly.py
163-170). -/
def visText (s : Str) : Str := unescape (stripTags s)

/-- `_visible_width(markup)` (disassembly.py 163-170): longest line of the
visible text. -/
def visible_width (markup : Str) : ℕ :=
  ((List.splitOn '\n' (visText markup)).map List.length).foldr max 0

theorem unescapeGo_escapeChar (c : Char) (X : Str) :
    unescapeGo [] (escapeChar c ++ X) = c :: unescapeGo [] X := by
  by_cases h1 : c = '&'
  · subst h1; rfl
  · by_cases h2 : c = '<'
    · subst h2; rfl
    · by_cases h3 : c = '>'
      · subst h3; rfl
      · by_cases h4 : c = '\''
        · subst h4; rfl
        · by_cases h5 : c = '"'
          · subst h5; rfl
          · rw [escapeChar, if_neg h1, if_neg h2, if_neg h3, if_neg h4, if_neg h5]
            rw [List.singleton_append, unescapeGo]
            rw [if_neg (by simp [entStrs, h1, h2, h3]), if_neg ?hpre, if_neg h1]
            · rfl
            case hpre =>
              simp [prefixAny, entStrs, isPrefixL, h1]

theorem unescape_escapeList_append (l : Str) (b : Str) :
    unescapeGo [] (escapeList l ++ b) = l ++ unescapeGo [] b := by
  induction l with
  | nil => rfl
  | cons c rest ih =>
    rw [escapeList, List.append_assoc, unescapeGo_escapeChar, ih]
    rfl

theorem entOkGo_escapeChar (c : Char) (X : Str) :
    entOkGo [] (escapeChar c ++ X) = entOkGo [] X := by
  by_cases h1 : c = '&'
  · subst h1; rfl
  · by_cases h2 : c = '<'
    · subst h2; rfl
    · by_cases h3 : c = '>'
      · subst h3; rfl
      · by_cases h4 : c = '\''
        · subst h4; rfl
        · by_cases h5 : c = '"'
          · subst h5; rfl
          · rw [escapeChar, if_neg h1, if_neg h2, if_neg h3, if_neg h4, if_neg h5]
            rw [List.singleton_append, entOkGo]
            rw [if_neg (by simp [entStrs, h1, h2, h3]), if_neg ?hpre, if_neg h1,
              if_pos rfl]
            case hpre =>
              simp [prefixAny, entStrs, isPrefixL, h1]

theorem entOk_escapeList (l : Str) : ∀ b, entOkGo [] b = true →
    entOkGo [] (escapeList l ++ b) = true := by
  induction l with
  | nil => intro b hb; exact hb
  | cons c rest ih =>
    intro b hb
    rw [escapeList, List.append_assoc, entOkGo_escapeChar]
    exact ih b hb

/-- Entity decoding distributes over concatenation when every `&` of the
left part begins a complete entity inside it. -/
theorem unescapeGo_append_entOk :
    ∀ (a : Str) (pend : Str), entOkGo pend a = true →
      ∀ b, unescapeGo pend (a ++ b) = unescapeGo pend a ++ unescapeGo [] b := by
  intro a
  induction a with
  | nil =>
    intro pend h b
    rw [entOkGo] at h
    have hp : pend = [] := by simpa using h
    subst hp
    rfl
  | cons c rest ih =>
    intro pend h b
    rw [entOkGo] at h
    rw [List.cons_append, unescapeGo, unescapeGo]
    by_cases hent : pend ++ [c] ∈ entStrs
    · rw [if_pos hent] at h ⊢
      rw [if_pos hent, ih [] h b]
      rfl
    · rw [if_neg hent] at h ⊢
      rw [if_neg hent]
      by_cases hpre : prefixAny (pend ++ [c]) = true
      · rw [if_pos hpre] at h ⊢
        rw [if_pos hpre, ih _ h b]
      · rw [if_neg hpre] at h ⊢
        rw [if_neg hpre]
        by_cases hamp : c = '&'
        · rw [if_pos hamp] at h; cases h
        · rw [if_neg hamp] at h ⊢
          rw [if_neg hamp]
          by_cases hp : pend = []
          · rw [if_pos hp] at h
            subst hp
            rw [ih [] h b]
            rfl
          · rw [if_neg hp] at h; cases h

theorem mem_escapeChar_ne_lt {c d : Char} (hd : d ∈ escapeChar c) :
    d ≠ '<' ∧ d ≠ '>' := by
  by_cases h1 : c = '&'
  · subst h1
    rw [show escapeChar '&' = ['&', 'a', 'm', 'p', ';'] from rfl] at hd
    simp only [List.mem_cons, List.not_mem_nil, or_false] at hd
    rcases hd with rfl | rfl | rfl | rfl | rfl <;> exact ⟨by decide, by decide⟩
  · by_cases h2 : c = '<'
    · subst h2
      rw [show escapeChar '<' = ['&', 'l', 't', ';'] from rfl] at hd
      simp only [List.mem_cons, List.not_mem_nil, or_false] at hd
      rcases hd with rfl | rfl | rfl | rfl <;> exact ⟨by decide, by decide⟩
    · by_cases h3 : c = '>'
      · subst h3
        rw [show escapeChar '>' = ['&', 'g', 't', ';'] from rfl] at hd
        simp only [List.mem_cons, List.not_mem_nil, or_false] at hd
        rcases hd with rfl | rfl | rfl | rfl <;> exact ⟨by decide, by decide⟩
      · by_cases h4 : c = '\''
        · subst h4
          rw [show escapeChar '\'' = ['&', '#', '3', '9', ';'] from rfl] at hd
          simp only [List.mem_cons, List.not_mem_nil, or_false] at hd
          rcases hd with rfl | rfl | rfl | rfl | rfl <;> exact ⟨by decide, by decide⟩
        · by_cases h5 : c = '"'
          · subst h5
            rw [show escapeChar '"' = ['&', '#', '3', '4', ';'] from rfl] at hd
            simp only [List.mem_cons, List.not_mem_nil, or_false] at hd
            rcases hd with rfl | rfl | rfl | rfl | rfl <;> exact ⟨by decide, by decide⟩
          · rw [escapeChar, if_neg h1, if_neg h2, if_neg h3, if_neg h4, if_neg h5] at hd
            have hdc : d = c := by simpa using hd
            subst hdc
            exact ⟨h2, h3⟩

theorem not_mem_escapeList_lt {l : Str} : '<' ∉ escapeList l ∧ '>' ∉ escapeList l := by
  induction l with
  | nil => simp [escapeList]
  | cons c rest ih =>
    rw [escapeList]
    constructor
    · intro hmem
      rcases List.mem_append.mp hmem with h | h
      · exact (mem_escapeChar_ne_lt h).1 rfl
      · exact ih.1 h
    · intro hmem
      rcases List.mem_append.mp hmem with h | h
      · exact (mem_escapeChar_ne_lt h).2 rfl
      · exact ih.2 h

/-- The tag automaton passes `<`-free text through unchanged. -/
theorem stripTagsGo_none_append {a : Str} (h : '<' ∉ a) (b : Str) :
    stripTagsGo none (a ++ b) = a ++ stripTagsGo none b := by
  induction a with
  | nil => rfl
  | cons c cs ih =>
    have hc : c ≠ '<' := fun hh => h (hh ▸ List.mem_cons_self c cs)
    rw [List.cons_append, stripTagsGo, if_neg hc,
      ih fun hm => h (List.mem_cons_of_mem _ hm)]
    rfl

/-- Once a tag is open, a `>`-free content followed by `>` closes and
deletes it (the buffer is non-empty when the content or the existing buffer
is). -/
theorem stripTagsGo_skip_tag :
    ∀ {content : Str} {p : Str} {rest : Str}, '>' ∉ content →
      (p ≠ [] ∨ content ≠ []) →
      stripTagsGo (some p) (content ++ '>' :: rest) = stripTagsGo none rest := by
  intro content
  induction content with
  | nil =>
    intro p rest _ hne
    have hp : p ≠ [] := by
      rcases hne with h | h
      · exact h
      · exact absurd rfl h
    rw [List.nil_append, stripTagsGo, if_pos rfl, if_neg hp]
  | cons c cs ih =>
    intro p rest hnotin hne
    have hc : c ≠ '>' := fun hh => hnotin (hh ▸ List.mem_cons_self c cs)
    rw [List.cons_append, stripTagsGo, if_neg hc]
    exact ih (fun hm => hnotin (List.mem_cons_of_mem _ hm)) (Or.inl (by simp))

/-- Stripping a whole tag `<content>` from the head of the input. -/
theorem stripTags_tag {content rest : Str} (h1 : '>' ∉ content)
    (h2 : content ≠ []) :
    stripTagsGo none ('<' :: (content ++ '>' :: rest)) = stripTagsGo none rest := by
  rw [stripTagsGo, if_pos rfl]
  exact stripTagsGo_skip_tag h1 (Or.inr h2)

/-! ## Comment address linker (`_linkify_comment_text`, disassembly.py
620-645)

The source iterates the regex `(?<!#)&([0-9A-Fa-f]{4,})` with `finditer`,
escaping gap text, turning a resolving 4-digit match into an anchor and
escaping every other match.  It is embedded as a single-pass scanner:
`prev` is the character before the scan position (for the look-behind) and
the `Option Str` state is the hex run collected after a candidate `&`
(a run shorter than 4 is no match, but escaping it char-wise equals
escaping it as a block, so the fused scanner is exact).  A separate
transcription of the contract, `linkify_spec_from`, is proved equal. -/

/-- The regex class `[0-9A-Fa-f]`. -/
def isHexDigit (c : Char) : Bool :=
  c.isDigit || ('a' ≤ c && c ≤ 'f') || ('A' ≤ c && c ≤ 'F')

/-- Value of one hex digit (either case), as in `int(s, 16)`. -/
def hexDigVal (c : Char) : ℕ :=
  if c.isDigit then c.toNat - '0'.toNat
  else if 'a' ≤ c ∧ c ≤ 'f' then c.toNat - 'a'.toNat + 10
  else c.toNat - 'A'.toNat + 10

/-- `int(hex_digits, 16)`. -/
def hexVal (l : Str) : ℕ := l.foldl (fun acc c => 16 * acc + hexDigVal c) 0

/-- One upper-case hex digit. -/
def hexDig (n : ℕ) : Char :=
  if n < 10 then Char.ofNat ('0'.toNat + n) else Char.ofNat ('A'.toNat + n - 10)

/-- `f"{n:04X}"` for a 16-bit address. -/
def hex4 (n : ℕ) : Str :=
  [hexDig (n / 4096 % 16), hexDig (n / 256 % 16), hexDig (n / 16 % 16),
   hexDig (n % 16)]

/-- `f'<a href="#addr-{target:04X}">&amp;{hex_digits}</a>'`. -/
def addrAnchor (run : Str) (target : ℕ) : Str :=
  "<a href=\"#addr-".data ++ hex4 target ++ "\">".data ++
    ['&', 'a', 'm', 'p', ';'] ++ run ++ "</a>".data

/-- Handling of one candidate `&`-run: a 4-digit run that resolves becomes
an anchor; anything else is escaped unchanged. -/
def finalizeRun (validAddrs sorted_addrs : List ℕ) (run : Str) : Str :=
  if run.length = 4 then
    match resolve_addr (hexVal run) validAddrs sorted_addrs with
    | some target => addrAnchor run target
    | none => escapeList ('&' :: run)
  else escapeList ('&' :: run)

/-- The fused `finditer` scan of `_linkify_comment_text`. -/
def linkifyGo (validAddrs sorted_addrs : List ℕ) :
    Option Char → Option Str → Str → Str
  | _, none, [] => []
  | _, some run, [] => finalizeRun validAddrs sorted_addrs run
  | prev, none, c :: rest =>
    if c = '&' ∧ prev ≠ some '#' then
      linkifyGo validAddrs sorted_addrs (some c) (some []) rest
    else escapeChar c ++ linkifyGo validAddrs sorted_addrs (some c) none rest
  | _, some run, c :: rest =>
    if isHexDigit c then
      linkifyGo validAddrs sorted_addrs (some c) (some (run ++ [c])) rest
    else if c = '&' then
      finalizeRun validAddrs sorted_addrs run ++
        linkifyGo validAddrs sorted_addrs (some c) (some []) rest
    else
      finalizeRun validAddrs sorted_addrs run ++ escapeChar c ++
        linkifyGo validAddrs sorted_addrs (some c) none rest

/-- `_linkify_comment_text(text, valid_addrs, sorted_addrs)`. -/
def linkify_comment_text (text : Str) (validAddrs sorted_addrs : List ℕ) : Str :=
  linkifyGo validAddrs sorted_addrs none none text

theorem hex_char_ne {c : Char} (h : isHexDigit c = true) :
    c ≠ '&' ∧ c ≠ '<' ∧ c ≠ '>' ∧ c ≠ '#' ∧ c ≠ '\'' ∧ c ≠ '"' := by
  refine ⟨?_, ?_, ?_, ?_, ?_, ?_⟩ <;> rintro rfl <;> exact absurd h (by decide)

theorem escapeChar_hex {c : Char} (h : isHexDigit c = true) :
    escapeChar c = [c] := by
  obtain ⟨h1, h2, h3, _, h5, h6⟩ := hex_char_ne h
  rw [escapeChar, if_neg h1, if_neg h2, if_neg h3, if_neg h5, if_neg h6]

theorem escapeList_append (a b : Str) :
    escapeList (a ++ b) = escapeList a ++ escapeList b := by
  induction a with
  | nil => rfl
  | cons c rest ih => rw [List.cons_append, escapeList, escapeList, ih, List.append_assoc]

theorem escapeList_hexRun {run : Str} (h : ∀ c ∈ run, isHexDigit c = true) :
    escapeList run = run := by
  induction run with
  | nil => rfl
  | cons c rest ih =>
    rw [escapeList, escapeChar_hex (h c (List.mem_cons_self c rest)),
      ih fun d hd => h d (List.mem_cons_of_mem _ hd)]
    rfl

theorem getLastD_hex_ne_hash {run : Str} (h : ∀ c ∈ run, isHexDigit c = true) :
    run.getLastD '&' ≠ '#' := by
  cases hr : run.reverse with
  | nil =>
    have : run = [] := by simpa using congrArg List.reverse hr
    subst this
    decide
  | cons c cs =>
    have hrun : run = (c :: cs).reverse := by
      have := congrArg List.reverse hr
      simpa using this
    subst hrun
    rw [List.reverse_cons, List.getLastD_concat]
    exact (hex_char_ne (h c (by simp))).2.2.2.1

/-- Collapsing the collecting state of the scanner: the pending run absorbs
the maximal hex run of the input, is finalized, and scanning resumes after
it with the last consumed character as look-behind. -/
theorem linkifyGo_collect (v s : List ℕ) :
    ∀ (suffix : Str) (run : Str) (prev : Option Char),
      (∀ c ∈ run, isHexDigit c = true) →
      linkifyGo v s prev (some run) suffix =
        finalizeRun v s (run ++ suffix.takeWhile isHexDigit) ++
          linkifyGo v s (some ((run ++ suffix.takeWhile isHexDigit).getLastD '&'))
            none (suffix.dropWhile isHexDigit) := by
  intro suffix
  induction suffix with
  | nil =>
    intro run prev _
    rw [List.takeWhile_nil, List.dropWhile_nil, List.append_nil]
    rw [show linkifyGo v s (some (run.getLastD '&')) none [] = [] from rfl,
      List.append_nil]
    rfl
  | cons c rest ih =>
    intro run prev hrun
    by_cases hc : isHexDigit c = true
    · rw [List.takeWhile_cons_of_pos hc, List.dropWhile_cons_of_pos hc]
      rw [show linkifyGo v s prev (some run) (c :: rest) =
        linkifyGo v s (some c) (some (run ++ [c])) rest by rw [linkifyGo, if_pos hc]]
      have hrun2 : ∀ d ∈ run ++ [c], isHexDigit d = true := by
        intro d hd
        rcases List.mem_append.mp hd with h | h
        · exact hrun d h
        · rw [List.mem_singleton.mp h]; exact hc
      rw [ih (run ++ [c]) (some c) hrun2]
      rw [List.append_assoc, List.singleton_append]
    · rw [List.takeWhile_cons_of_neg (by simp [hc]),
        List.dropWhile_cons_of_neg (by simp [hc]), List.append_nil]
      have hlast : (some (run.getLastD '&') : Option Char) ≠ some '#' :=
        fun hx => getLastD_hex_ne_hash hrun (Option.some.inj hx)
      by_cases hamp : c = '&'
      · subst hamp
        rw [show linkifyGo v s prev (some run) ('&' :: rest) =
          finalizeRun v s run ++ linkifyGo v s (some '&') (some []) rest by
            rw [linkifyGo, if_neg (by simp [hc]), if_pos rfl]]
        rw [show linkifyGo v s (some (run.getLastD '&')) none ('&' :: rest) =
          linkifyGo v s (some '&') (some []) rest by
            rw [linkifyGo, if_pos ⟨rfl, hlast⟩]]
      · rw [show linkifyGo v s prev (some run) (c :: rest) =
          finalizeRun v s run ++ (escapeChar c ++ linkifyGo v s (some c) none rest) by
            rw [linkifyGo, if_neg (by simp [hc]), if_neg hamp, List.append_assoc]]
        rw [show linkifyGo v s (some (run.getLastD '&')) none (c :: rest) =
          escapeChar c ++ linkifyGo v s (some c) none rest by
            rw [linkifyGo, if_neg (by simp [hamp])]]

theorem hexDig_ne {n : ℕ} : hexDig (n % 16) ≠ '<' ∧ hexDig (n % 16) ≠ '>' := by
  have h16 : n % 16 < 16 := Nat.mod_lt _ (by omega)
  revert h16
  generalize n % 16 = k
  revert k
  decide

theorem not_mem_hex4_lt {t : ℕ} : '<' ∉ hex4 t ∧ '>' ∉ hex4 t := by
  constructor <;> intro hm <;>
    (rw [hex4] at hm
     simp only [List.mem_cons, List.not_mem_nil, or_false] at hm) <;>
    rcases hm with h | h | h | h
  all_goals
    first
      | exact absurd h.symm hexDig_ne.1
      | exact absurd h.symm hexDig_ne.2

theorem length_dropWhile_le_self (p : Char → Bool) :
    ∀ l : Str, (l.dropWhile p).length ≤ l.length := by
  intro l
  induction l with
  | nil => simp
  | cons c rest ih =>
    rw [List.dropWhile_cons]
    split
    · exact le_trans ih (by simp)
    · simp

theorem strip_escapeList (l X : Str) :
    stripTagsGo none (escapeList l ++ X) = escapeList l ++ stripTagsGo none X :=
  stripTagsGo_none_append not_mem_escapeList_lt.1 X

theorem strip_addrAnchor (v : ℕ) {run : Str}
    (hrun : ∀ c ∈ run, isHexDigit c = true) (X : Str) :
    stripTagsGo none (addrAnchor run v ++ X) =
      ['&', 'a', 'm', 'p', ';'] ++ run ++ stripTagsGo none X := by
  have hshape : addrAnchor run v ++ X =
      '<' :: (("a href=\"#addr-".data ++ hex4 v ++ ['"']) ++
        '>' :: (['&', 'a', 'm', 'p', ';'] ++ (run ++ ("</a>".data ++ X)))) := by
    rw [addrAnchor]
    simp [List.append_assoc]
  rw [hshape]
  rw [stripTags_tag ?hgt ?hne]
  case hgt =>
    intro hm
    rcases List.mem_append.mp hm with hm | hm
    · rcases List.mem_append.mp hm with hm | hm
      · revert hm; decide
      · rw [hex4] at hm
        simp only [List.mem_cons, List.not_mem_nil, or_false] at hm
        rcases hm with h | h | h | h <;> exact absurd h.symm hexDig_ne.2
    · simp at hm
  case hne => simp
  rw [stripTagsGo_none_append (by decide)]
  rw [stripTagsGo_none_append ?hrunlt]
  case hrunlt =>
    intro hm
    exact (hex_char_ne (hrun '<' hm)).2.1 rfl
  have htail : ("</a>".data : Str) ++ X = '<' :: (['/', 'a'] ++ '>' :: X) := by
    simp
  rw [htail, stripTags_tag (by decide) (by simp)]
  rw [List.append_assoc]

theorem finalize_strip (v s : List ℕ) {run : Str}
    (hrun : ∀ c ∈ run, isHexDigit c = true) (X : Str) :
    stripTagsGo none (finalizeRun v s run ++ X) =
      escapeList ('&' :: run) ++ stripTagsGo none X := by
  rw [finalizeRun]
  split
  · split
    · next t _ =>
      rw [strip_addrAnchor t hrun X]
      rw [show escapeList ('&' :: run) = ['&', 'a', 'm', 'p', ';'] ++ escapeList run from rfl]
      rw [escapeList_hexRun hrun, List.append_assoc]
    · exact strip_escapeList _ _
  · exact strip_escapeList _ _

/-- Stripping the tags of linkified output recovers the escaped source text:
anchors contribute exactly their `&amp;XXXX` display text. -/
theorem linkify_strip (v s : List ℕ) :
    ∀ (n : ℕ) (text : Str), text.length ≤ n →
      ∀ (prev : Option Char) (tailS : Str),
        stripTagsGo none (linkifyGo v s prev none text ++ tailS) =
          escapeList text ++ stripTagsGo none tailS := by
  intro n
  induction n with
  | zero =>
    intro text hlen prev tailS
    have : text = [] := List.length_eq_zero.mp (by omega)
    subst this
    rfl
  | succ n ih =>
    intro text hlen prev tailS
    cases text with
    | nil => rfl
    | cons c rest =>
      by_cases hbr : (c = '&' ∧ prev ≠ some '#')
      · obtain ⟨hc, hprev⟩ := hbr
        subst hc
        rw [show linkifyGo v s prev none ('&' :: rest) =
          linkifyGo v s (some '&') (some []) rest by
            rw [linkifyGo, if_pos ⟨rfl, hprev⟩]]
        rw [linkifyGo_collect v s rest [] (some '&') (by simp)]
        rw [List.nil_append, List.append_assoc]
        rw [finalize_strip v s (fun c hc => List.mem_takeWhile_imp hc) _]
        rw [ih (rest.dropWhile isHexDigit)
          (le_trans (length_dropWhile_le_self isHexDigit rest) (by simpa using hlen)) _ _]
        rw [show escapeList ('&' :: rest) = ['&', 'a', 'm', 'p', ';'] ++ escapeList rest from rfl]
        rw [show escapeList ('&' :: rest.takeWhile isHexDigit) =
          ['&', 'a', 'm', 'p', ';'] ++ escapeList (rest.takeWhile isHexDigit) from rfl]
        conv =>
          rhs
          rw [show (rest : Str) = rest.takeWhile isHexDigit ++ rest.dropWhile isHexDigit from
            (List.takeWhile_append_dropWhile _ _).symm]
        rw [escapeList_append]
        simp [List.append_assoc]
      · rw [show linkifyGo v s prev none (c :: rest) =
          escapeChar c ++ linkifyGo v s (some c) none rest by
            rw [linkifyGo, if_neg hbr]]
        rw [List.append_assoc]
        rw [stripTagsGo_none_append (fun hm => (mem_escapeChar_ne_lt hm).1 rfl)]
        rw [ih rest (by simpa using hlen) _ _]
        rw [show escapeList (c :: rest) = escapeChar c ++ escapeList rest from rfl]
        rw [List.append_assoc]

/-- C10: Visible-text preservation.  Stripping all tag spans from the output
of the comment escaper/linker and entity-decoding the remainder yields the
original text: escaping and address-linking never add, remove or change a
visible character. -/
theorem linkify_visible_roundtrip (text : Str) (validAddrs sorted_addrs : List ℕ) :
    visText (linkify_comment_text text validAddrs sorted_addrs) = text := by
  rw [visText, linkify_comment_text, stripTags]
  have h1 := linkify_strip validAddrs sorted_addrs text.length text le_rfl none []
  rw [List.append_nil] at h1
  rw [show stripTagsGo none [] = [] from rfl, List.append_nil] at h1
  rw [h1, unescape]
  have h2 := unescape_escapeList_append text []
  rw [List.append_nil] at h2
  rw [h2, show unescapeGo ([] : Str) ([] : Str) = [] from rfl, List.append_nil]

theorem length_takeWhile_le_self (p : Char → Bool) :
    ∀ l : Str, (l.takeWhile p).length ≤ l.length := by
  intro l
  induction l with
  | nil => simp
  | cons c rest ih =>
    rw [List.takeWhile_cons]
    split
    · simpa using ih
    · simp

theorem dropWhile_eq_drop_len (p : Char → Bool) :
    ∀ l : Str, l.dropWhile p = l.drop (l.takeWhile p).length := by
  intro l
  induction l with
  | nil => rfl
  | cons c rest ih =>
    by_cases hc : p c = true
    · rw [List.dropWhile_cons_of_pos hc, List.takeWhile_cons_of_pos hc,
        List.length_cons, List.drop_succ_cons]
      exact ih
    · rw [List.dropWhile_cons_of_neg (by simp [hc]),
        List.takeWhile_cons_of_neg (by simp [hc]), List.length_nil, List.drop_zero]

theorem getD_drop (text : Str) (m j : ℕ) (d : Char) :
    (text.drop m).getD j d = text.getD (m + j) d := by
  rw [List.getD_eq_getElem?_getD, List.getD_eq_getElem?_getD, List.getElem?_drop]

theorem takeWhile_getD (p : Char → Bool) (l : Str) {j : ℕ}
    (hj : j < (l.takeWhile p).length) (d : Char) :
    (l.takeWhile p).getD j d = l.getD j d := by
  obtain ⟨t, ht⟩ := @List.takeWhile_prefix Char l p
  conv_rhs => rw [← ht]
  rw [List.getD_append _ _ _ _ hj]

theorem getLastD_eq_getD {l : Str} (h : l ≠ []) (d : Char) :
    l.getLastD d = l.getD (l.length - 1) d := by
  rw [List.getLastD_eq_getLast?, List.getLast?_eq_getLast _ h, Option.getD_some,
    List.getLast_eq_getElem, List.getD_eq_getElem _ _ (by
      have := List.length_pos.mpr h
      omega)]

/-! ## C4: the linker contract, transcribed, and its equivalence

`linkify_spec_from` renders the contract of 4.6 directly over the original
text: scan for `&` followed by 4+ hex digits and not preceded by `#`;
a 4-digit resolving run becomes an anchor preserving its display text,
every other occurrence — including every run of five or more digits — and
all remaining text is escaped unchanged. -/

/-- The maximal hex run starting at position `i`. -/
def hexRunAt (text : Str) (i : ℕ) : Str := (text.drop i).takeWhile isHexDigit

/-- Does a regex match `(?<!#)&([0-9A-Fa-f]{4,})` start at position `i`? -/
def isOccurrenceAt (text : Str) (i : ℕ) : Bool :=
  (text.getD i ' ' == '&') &&
    (decide (i = 0) || !(text.getD (i - 1) ' ' == '#')) &&
    decide (4 ≤ (hexRunAt text (i + 1)).length)

theorem isOccurrenceAt_iff {text : Str} {i : ℕ} :
    isOccurrenceAt text i = true ↔
      text.getD i ' ' = '&' ∧ (i = 0 ∨ text.getD (i - 1) ' ' ≠ '#') ∧
        4 ≤ (hexRunAt text (i + 1)).length := by
  rw [isOccurrenceAt]
  simp [and_assoc]

/-- The claim's contract, rendered match by match over the original text. -/
def linkify_spec_from (v s : List ℕ) (text : Str) (pos : ℕ) : Str :=
  if _h : pos < text.length then
    if isOccurrenceAt text pos then
      finalizeRun v s (hexRunAt text (pos + 1)) ++
        linkify_spec_from v s text (pos + 1 + (hexRunAt text (pos + 1)).length)
    else
      escapeChar (text.getD pos ' ') ++ linkify_spec_from v s text (pos + 1)
  else []
termination_by text.length - pos

def linkify_spec (v s : List ℕ) (text : Str) : Str := linkify_spec_from v s text 0

/-- The contract renderer walks over a hex run character-by-character,
escaping it unchanged (hex digits start no match). -/
theorem linkify_spec_hexrun (v s : List ℕ) (text : Str) :
    ∀ (k : ℕ) (pos : ℕ), (hexRunAt text pos).length = k → pos ≤ text.length →
      linkify_spec_from v s text pos =
        escapeList (hexRunAt text pos) ++ linkify_spec_from v s text (pos + k) := by
  intro k
  induction k with
  | zero =>
    intro pos hlen _
    rw [List.length_eq_zero.mp hlen]
    rw [show escapeList [] = [] from rfl, List.nil_append, Nat.add_zero]
  | succ k ih =>
    intro pos hlen hpos
    have hne : hexRunAt text pos ≠ [] := by
      intro hx; rw [hx] at hlen; simp at hlen
    have hlt : pos < text.length := by
      by_contra hge
      have : text.drop pos = [] := List.drop_eq_nil_of_le (by omega)
      rw [hexRunAt, this] at hne
      exact hne rfl
    have hdrop : text.drop pos = text.getD pos ' ' :: text.drop (pos + 1) := by
      rw [List.drop_eq_getElem_cons hlt, List.getD_eq_getElem _ _ hlt]
    have hhex : isHexDigit (text.getD pos ' ') = true := by
      by_contra hno
      rw [hexRunAt, hdrop, List.takeWhile_cons_of_neg hno] at hlen
      simp at hlen
    have hrun_cons : hexRunAt text pos =
        text.getD pos ' ' :: hexRunAt text (pos + 1) := by
      rw [hexRunAt, hdrop, List.takeWhile_cons_of_pos hhex, hexRunAt]
    have hnotocc : isOccurrenceAt text pos = false := by
      rw [Bool.eq_false_iff]
      intro hocc
      exact (hex_char_ne hhex).1 (isOccurrenceAt_iff.mp hocc).1
    rw [linkify_spec_from, dif_pos hlt, if_neg (by simp [hnotocc])]
    have hlen2 : (hexRunAt text (pos + 1)).length = k := by
      rw [hrun_cons] at hlen
      simpa using hlen
    rw [ih (pos + 1) hlen2 (by omega)]
    rw [hrun_cons, show escapeList (text.getD pos ' ' :: hexRunAt text (pos + 1)) =
      escapeChar (text.getD pos ' ') ++ escapeList (hexRunAt text (pos + 1)) from rfl]
    rw [escapeChar_hex hhex]
    have harith : pos + 1 + k = pos + (k + 1) := by omega
    rw [harith, List.append_assoc]

/-- The fused scanner agrees with the transcribed contract from any scan
position whose look-behind information matches the original text. -/
theorem linkifyGo_eq_spec (v s : List ℕ) (text : Str) :
    ∀ (n : ℕ) (pos : ℕ), text.length - pos ≤ n → pos ≤ text.length →
      ∀ prev : Option Char,
        ((prev ≠ some '#') ↔ (pos = 0 ∨ text.getD (pos - 1) ' ' ≠ '#')) →
        linkifyGo v s prev none (text.drop pos) = linkify_spec_from v s text pos := by
  intro n
  induction n with
  | zero =>
    intro pos hn hpos prev _
    have hpl : pos = text.length := by omega
    rw [hpl, List.drop_length, linkify_spec_from, dif_neg (by omega)]
    rfl
  | succ n ih =>
    intro pos hn hpos prev hprev
    by_cases hlt : pos < text.length
    case neg =>
      have hpl : pos = text.length := by omega
      rw [hpl, List.drop_length, linkify_spec_from, dif_neg (by omega)]
      rfl
    case pos =>
    have hdrop : text.drop pos = text.getD pos ' ' :: text.drop (pos + 1) := by
      rw [List.drop_eq_getElem_cons hlt, List.getD_eq_getElem _ _ hlt]
    have hrunhex : ∀ c ∈ hexRunAt text (pos + 1), isHexDigit c = true :=
      fun c hc => List.mem_takeWhile_imp hc
    have hrunlen : (hexRunAt text (pos + 1)).length ≤ text.length - (pos + 1) := by
      have h1 := length_takeWhile_le_self isHexDigit (text.drop (pos + 1))
      rw [List.length_drop] at h1
      exact h1
    have htw : (text.drop (pos + 1)).takeWhile isHexDigit = hexRunAt text (pos + 1) := rfl
    have hdw : (text.drop (pos + 1)).dropWhile isHexDigit =
        text.drop (pos + 1 + (hexRunAt text (pos + 1)).length) := by
      rw [dropWhile_eq_drop_len, htw, List.drop_drop]
    have hlastprev : ∀ (newpos : ℕ),
        newpos = pos + 1 + (hexRunAt text (pos + 1)).length →
        text.getD pos ' ' = '&' →
        ((some ((hexRunAt text (pos + 1)).getLastD '&') ≠ some '#') ↔
          (newpos = 0 ∨ text.getD (newpos - 1) ' ' ≠ '#')) := by
      intro newpos hnp hamp
      apply iff_of_true
      · intro hx
        exact getLastD_hex_ne_hash hrunhex (Option.some.inj hx)
      · right
        cases hrw : hexRunAt text (pos + 1) with
        | nil =>
          rw [hrw] at hnp
          simp only [List.length_nil, Nat.add_zero] at hnp
          rw [hnp]
          simp only [Nat.add_sub_cancel]
          rw [hamp]
          decide
        | cons d ds =>
          have hne : hexRunAt text (pos + 1) ≠ [] := by rw [hrw]; simp
          set k := (hexRunAt text (pos + 1)).length with hk
          have hkpos : 1 ≤ k := by rw [hk, hrw]; simp
          have hlen2 : ((text.drop (pos + 1)).takeWhile isHexDigit).length = k := by
            rw [htw]
          have hgd : text.getD (newpos - 1) ' ' =
              (hexRunAt text (pos + 1)).getD (k - 1) ' ' := by
            conv_rhs => rw [show hexRunAt text (pos + 1) =
              (text.drop (pos + 1)).takeWhile isHexDigit from rfl]
            rw [takeWhile_getD isHexDigit (text.drop (pos + 1)) (by rw [hlen2]; omega) ' ']
            rw [getD_drop]
            congr 1
            omega
          rw [hgd]
          have hmem : (hexRunAt text (pos + 1)).getD (k - 1) ' ' ∈
              hexRunAt text (pos + 1) := by
            rw [List.getD_eq_getElem _ _ (by omega)]
            exact List.getElem_mem _
          exact (hex_char_ne (hrunhex _ hmem)).2.2.2.1
    by_cases hocc : isOccurrenceAt text pos = true
    · obtain ⟨hamp, hlook, _⟩ := isOccurrenceAt_iff.mp hocc
      rw [hdrop, hamp]
      rw [show linkifyGo v s prev none ('&' :: text.drop (pos + 1)) =
          linkifyGo v s (some '&') (some []) (text.drop (pos + 1)) by
        rw [linkifyGo, if_pos ⟨rfl, hprev.mpr hlook⟩]]
      rw [linkifyGo_collect v s _ [] _ (by simp)]
      simp only [List.nil_append]
      rw [htw, hdw]
      conv_rhs => rw [linkify_spec_from]
      rw [dif_pos hlt, if_pos hocc]
      congr 1
      exact ih _ (by omega) (by omega) _ (hlastprev _ rfl hamp)
    · by_cases hbr : (text.getD pos ' ' = '&' ∧ prev ≠ some '#')
      · obtain ⟨hamp, hprev2⟩ := hbr
        have hlook : pos = 0 ∨ text.getD (pos - 1) ' ' ≠ '#' := hprev.mp hprev2
        have hrunlt : (hexRunAt text (pos + 1)).length < 4 := by
          by_contra hge
          exact absurd (isOccurrenceAt_iff.mpr ⟨hamp, hlook, by omega⟩) (by simp [hocc])
        rw [hdrop, hamp]
        rw [show linkifyGo v s prev none ('&' :: text.drop (pos + 1)) =
            linkifyGo v s (some '&') (some []) (text.drop (pos + 1)) by
          rw [linkifyGo, if_pos ⟨rfl, hprev2⟩]]
        rw [linkifyGo_collect v s _ [] _ (by simp)]
        simp only [List.nil_append]
        rw [htw, hdw]
        rw [show finalizeRun v s (hexRunAt text (pos + 1)) =
            escapeList ('&' :: hexRunAt text (pos + 1)) by
          rw [finalizeRun, if_neg (by omega)]]
        conv_rhs => rw [linkify_spec_from]
        rw [dif_pos hlt, if_neg (by simp [hocc]), hamp]
        rw [linkify_spec_hexrun v s text (hexRunAt text (pos + 1)).length (pos + 1)
          rfl (by omega)]
        rw [ih _ (by omega) (by omega) _ (hlastprev _ rfl hamp)]
        rw [show escapeList ('&' :: hexRunAt text (pos + 1)) =
          escapeChar '&' ++ escapeList (hexRunAt text (pos + 1)) from rfl]
        rw [List.append_assoc]
      · rw [hdrop]
        rw [show linkifyGo v s prev none (text.getD pos ' ' :: text.drop (pos + 1)) =
            escapeChar (text.getD pos ' ') ++
              linkifyGo v s (some (text.getD pos ' ')) none (text.drop (pos + 1)) by
          rw [linkifyGo, if_neg hbr]]
        conv_rhs => rw [linkify_spec_from]
        rw [dif_pos hlt, if_neg (by simp [hocc])]
        congr 1
        apply ih (pos + 1) (by omega) (by omega)
        constructor
        · intro h
          right
          simp only [Nat.add_sub_cancel]
          intro hx
          exact h (by rw [hx])
        · intro h hx
          rcases h with h | h
          · omega
          · simp only [Nat.add_sub_cancel] at h
            exact h (Option.some.inj hx)

/-- C4: Comment address linking.  `_linkify_comment_text` equals the
contract transcription `linkify_spec`: every `&`-plus-exactly-four-hex-digit
occurrence not preceded by `#` that resolves through the index becomes an
anchor to `#addr-<resolved>` preserving its `&XXXX` display text, runs of
five or more hex digits are never linked, and unresolved matches and all
other text appear HTML-escaped and otherwise unchanged. -/
theorem linkify_comment_matches_spec (text : Str)
    (validAddrs sorted_addrs : List ℕ) :
    linkify_comment_text text validAddrs sorted_addrs =
      linkify_spec validAddrs sorted_addrs text := by
  rw [linkify_comment_text, linkify_spec]
  have h := linkifyGo_eq_spec validAddrs sorted_addrs text text.length 0
    (by omega) (by omega) none (by simp)
  rw [List.drop_zero] at h
  exact h

/-! ## Glossary linker (`glossary.py` 156-256)

`_find_text_occurrences` scans the HTML once, tracking whether the position
is inside a tag (with the tag's accumulated content for the anchor-depth
update at `>`), and an `<a>`-element depth counter; a pattern match is
recorded only outside tags at depth zero and scanning jumps over the match.
The jump is realised structurally by a `skip` counter: skipped characters
do not touch the state, exactly as the source's `i += pat_len` skips them.
The source loops forever on an empty pattern; the embedding is total and
theorems assume a non-empty pattern. -/

structure GlossEntry where
  slug : Str
  expansion : Option Str
  brief : Str
deriving DecidableEq

structure LinkSpec where
  pattern : Str
  occurrence : Int
  term : Str
deriving DecidableEq

/-- `str.lower` (ASCII model). -/
def toLowerStr (s : Str) : Str := s.map Char.toLower

/-- `str.lstrip()`. -/
def lstripWs (s : Str) : Str := s.dropWhile (fun c => c.isWhitespace)

/-- Anchor-depth update performed when a tag closes: `a …`/`a` opens an
anchor, `/a…` closes one (floored at zero, as `max(0, depth - 1)`). -/
def tagDepthDelta (content : Str) (depth : ℕ) : ℕ :=
  let tl := lstripWs (toLowerStr content)
  if isPrefixL ['a', ' '] tl = true ∨ tl = ['a'] then depth + 1
  else if isPrefixL ['/', 'a'] tl = true then depth - 1
  else depth

/-- The scan loop of `_find_text_occurrences` (glossary.py 163-203). -/
def findTextOccGo (pattern : Str) :
    ℕ → ℕ → Option Str → ℕ → Str → List (ℕ × ℕ)
  | _, _, _, _, [] => []
  | i, skip, tagState, depth, c :: rest =>
    if skip ≠ 0 then findTextOccGo pattern (i + 1) (skip - 1) tagState depth rest
    else
      match tagState with
      | none =>
        if c = '<' then findTextOccGo pattern (i + 1) 0 (some []) depth rest
        else if depth = 0 ∧ isPrefixL pattern (c :: rest) = true then
          (i, i + pattern.length) ::
            findTextOccGo pattern (i + 1) (pattern.length - 1) none depth rest
        else findTextOccGo pattern (i + 1) 0 none depth rest
      | some content =>
        if c = '<' then findTextOccGo pattern (i + 1) 0 (some []) depth rest
        else if c = '>' then
          findTextOccGo pattern (i + 1) 0 none (tagDepthDelta content depth) rest
        else findTextOccGo pattern (i + 1) 0 (some (content ++ [c])) depth rest

/-- `_find_text_occurrences(html_text, pattern)`. -/
def find_text_occurrences (html_text : Str) (pattern : Str) : List (ℕ × ℕ) :=
  findTextOccGo pattern 0 0 none 0 html_text

/-- `_build_tooltip(entry)` (glossary.py 156-160); an empty expansion is
falsy in the source. -/
def build_tooltip (e : GlossEntry) : Str :=
  match e.expansion with
  | some ex => if ex = [] then e.brief else ex ++ ':' :: ' ' :: e.brief
  | none => e.brief

/-- The replacement anchor built for one matched span. -/
def glossary_anchor (entry : GlossEntry) (matched : Str) : Str :=
  "<a href=\"glossary.html#term-".data ++ entry.slug ++
    "\" class=\"glossary-ref\" data-tip=\"".data ++
    escapeList (build_tooltip entry) ++ "\">".data ++
    escapeList matched ++ "</a>".data

/-- The body of the per-spec loop of `apply_glossary_links`: `none` is a
skipped (warned-about) spec — unknown term, pattern with no text-node
match, or occurrence index out of range. -/
def spec_replacement (html : Str) (lookup : Str → Option GlossEntry)
    (ls : LinkSpec) : Option (ℕ × ℕ × Str) :=
  match lookup ls.term with
  | none => none
  | some entry =>
    let ms := find_text_occurrences html ls.pattern
    if ms = [] then none
    else
      let idx : Int :=
        if 0 ≤ ls.occurrence then ls.occurrence else (ms.length : Int) + ls.occurrence
      if idx < 0 ∨ (ms.length : Int) ≤ idx then none
      else
        let se := ms.getD idx.toNat (0, 0)
        some (se.1, se.2, glossary_anchor entry ((html.drop se.1).take (se.2 - se.1)))

/-- Stable insertion by descending start offset, modelling
`replacements.sort(key=lambda r: r[0], reverse=True)`. -/
def insertDesc (x : ℕ × ℕ × Str) : List (ℕ × ℕ × Str) → List (ℕ × ℕ × Str)
  | [] => [x]
  | y :: ys => if y.1 ≤ x.1 then x :: y :: ys else y :: insertDesc x ys

def sortByStartDesc (l : List (ℕ × ℕ × Str)) : List (ℕ × ℕ × Str) :=
  l.foldr insertDesc []

/-- `apply_glossary_links(html_text, glossary_links, glossary_lookup, slug)`
(glossary.py 206-256); the `slug` argument is unused by the source body. -/
def apply_glossary_links (html_text : Str) (glossary_links : List LinkSpec)
    (glossary_lookup : Str → Option GlossEntry) (_slug : Str) : Str :=
  let repls := glossary_links.filterMap (spec_replacement html_text glossary_lookup)
  (sortByStartDesc repls).foldl
    (fun h r => h.take r.1 ++ r.2.2 ++ h.drop r.2.1) html_text

/-- C6: Glossary occurrence selection and graceful degradation.  A spec
whose term is unknown, whose pattern has no text-node match, or whose
selected occurrence is out of range contributes nothing while the remaining
specs are still applied; a negative occurrence selects from the end
(`len + occurrence`, so `-1` is the last match), a non-negative one
directly, and the selected spec replaces exactly the chosen span.  The
embedding is a total function: no input raises or aborts. -/
theorem apply_glossary_links_graceful (html : Str)
    (lookup : Str → Option GlossEntry) (ls : LinkSpec) (rest : List LinkSpec)
    (slug : Str) :
    (lookup ls.term = none →
      apply_glossary_links html (ls :: rest) lookup slug =
        apply_glossary_links html rest lookup slug)
  ∧ (find_text_occurrences html ls.pattern = [] →
      apply_glossary_links html (ls :: rest) lookup slug =
        apply_glossary_links html rest lookup slug)
  ∧ (((if 0 ≤ ls.occurrence then ls.occurrence
        else ((find_text_occurrences html ls.pattern).length : Int) + ls.occurrence) < 0 ∨
      ((find_text_occurrences html ls.pattern).length : Int) ≤
        (if 0 ≤ ls.occurrence then ls.occurrence
          else ((find_text_occurrences html ls.pattern).length : Int) + ls.occurrence)) →
      apply_glossary_links html (ls :: rest) lookup slug =
        apply_glossary_links html rest lookup slug)
  ∧ (∀ entry, lookup ls.term = some entry →
      ∀ idx : ℕ, idx < (find_text_occurrences html ls.pattern).length →
      ((0 ≤ ls.occurrence ∧ ls.occurrence = (idx : Int)) ∨
        (ls.occurrence < 0 ∧
          ((find_text_occurrences html ls.pattern).length : Int) + ls.occurrence = (idx : Int))) →
      spec_replacement html lookup ls =
        some (((find_text_occurrences html ls.pattern).getD idx (0, 0)).1,
          ((find_text_occurrences html ls.pattern).getD idx (0, 0)).2,
            glossary_anchor entry
              ((html.drop ((find_text_occurrences html ls.pattern).getD idx (0, 0)).1).take
                (((find_text_occurrences html ls.pattern).getD idx (0, 0)).2 -
                  ((find_text_occurrences html ls.pattern).getD idx (0, 0)).1)))) := by
  have hskip : spec_replacement html lookup ls = none →
      apply_glossary_links html (ls :: rest) lookup slug =
        apply_glossary_links html rest lookup slug := by
    intro h
    rw [apply_glossary_links, apply_glossary_links, List.filterMap_cons, h]
  refine ⟨?_, ?_, ?_, ?_⟩
  · intro h
    apply hskip
    rw [spec_replacement, h]
  · intro h
    apply hskip
    rw [spec_replacement]
    cases hl : lookup ls.term with
    | none => rfl
    | some entry => simp [h]
  · intro h
    apply hskip
    rw [spec_replacement]
    cases hl : lookup ls.term with
    | none => rfl
    | some entry =>
      simp only
      by_cases hms : find_text_occurrences html ls.pattern = []
      · rw [if_pos hms]
      · rw [if_neg hms, if_pos h]
  · intro entry hl idx hidx hsel
    rw [spec_replacement, hl]
    simp only
    have hms : find_text_occurrences html ls.pattern ≠ [] := by
      intro hx
      rw [hx] at hidx
      simp at hidx
    rw [if_neg hms]
    have hidxeq : (if 0 ≤ ls.occurrence then ls.occurrence
        else ((find_text_occurrences html ls.pattern).length : Int) + ls.occurrence) =
        (idx : Int) := by
      rcases hsel with ⟨hge, heq⟩ | ⟨hlt, heq⟩
      · rw [if_pos hge, heq]
      · rw [if_neg (by omega), heq]
    rw [hidxeq]
    rw [if_neg (by push_neg; constructor <;> omega)]
    rw [Int.toNat_natCast]

/-- Concrete instantiation of C6: in `"xyx"` the pattern `"x"` matches at
positions 0 and 2; occurrence `-1` selects the last match `(2, 3)`. -/
theorem apply_glossary_links_graceful_witness :
    spec_replacement "xyx".data
      (fun t => if t = "T".data then
          some ⟨"t".data, none, "B".data⟩ else none)
      ⟨"x".data, -1, "T".data⟩ =
      some (2, 3, glossary_anchor ⟨"t".data, none, "B".data⟩
        (("xyx".data.drop 2).take 1)) := by
  have h := (apply_glossary_links_graceful "xyx".data
    (fun t => if t = "T".data then some ⟨"t".data, none, "B".data⟩ else none)
    ⟨"x".data, -1, "T".data⟩ [] []).2.2.2
    ⟨"t".data, none, "B".data⟩ (by decide) 1 (by decide)
    (Or.inr ⟨by decide, by decide⟩)
  rw [h]
  decide

/-! ## C5: placement-safety of glossary spans

The claim's reference classification of positions: fold the tag/anchor
automaton over the prefix of the document, with no pattern skipping.
`refStateAt html k = (none, 0)` says position `k` lies outside tag
delimiters and outside any open anchor element. -/

/-- One step of the claim's tag/anchor automaton. -/
def refScanStep (st : Option Str × ℕ) (c : Char) : Option Str × ℕ :=
  match st.1 with
  | none => if c = '<' then (some [], st.2) else st
  | some content =>
    if c = '<' then (some [], st.2)
    else if c = '>' then (none, tagDepthDelta content st.2)
    else (some (content ++ [c]), st.2)

/-- The claim's automaton state just before position `k`. -/
def refStateAt (html : Str) (k : ℕ) : Option Str × ℕ :=
  (html.take k).foldl refScanStep (none, 0)

theorem refStateAt_succ {html : Str} {k : ℕ} (hk : k < html.length) :
    refStateAt html (k + 1) = refScanStep (refStateAt html k) (html.getD k ' ') := by
  rw [refStateAt, refStateAt, List.take_succ, List.foldl_append]
  rw [List.getElem?_eq_getElem hk]
  rw [List.getD_eq_getElem _ _ hk]
  rfl

theorem refStateAt_stable {html : Str} {k : ℕ} (hk : html.length ≤ k) :
    refStateAt html (k + 1) = refStateAt html k := by
  rw [refStateAt, refStateAt, List.take_of_length_le hk,
    List.take_of_length_le (by omega)]

theorem refScanStep_text {d : ℕ} {c : Char} (hc : c ≠ '<') :
    refScanStep (none, d) c = (none, d) := by
  rw [refScanStep]
  simp [hc]

/-- A run of non-`<` characters starting at a text position keeps the
automaton in the same text state. -/
theorem refStateAt_span (html : Str) (L i : ℕ)
    (hstart : refStateAt html i = (none, 0))
    (hchars : ∀ j, j < L → html.getD (i + j) ' ' ≠ '<') :
    ∀ j, j ≤ L → refStateAt html (i + j) = (none, 0) := by
  intro j
  induction j with
  | zero => intro _; simpa using hstart
  | succ j ihj =>
    intro hle
    have hprev : refStateAt html (i + j) = (none, 0) := ihj (by omega)
    by_cases hk : i + j < html.length
    · rw [show i + (j + 1) = (i + j) + 1 by omega, refStateAt_succ hk, hprev]
      exact refScanStep_text (hchars j (by omega))
    · rw [show i + (j + 1) = (i + j) + 1 by omega, refStateAt_stable (by omega)]
      exact hprev

theorem isPrefixL_take {p : Str} : ∀ {l : Str}, isPrefixL p l = true →
    l.take p.length = p ∧ p.length ≤ l.length := by
  induction p with
  | nil => intro l _; simp
  | cons a as ih =>
    intro l h
    cases l with
    | nil => simp [isPrefixL] at h
    | cons b bs =>
      rw [isPrefixL, Bool.and_eq_true, beq_iff_eq] at h
      obtain ⟨rfl, h2⟩ := h
      obtain ⟨ht, hl⟩ := ih h2
      refine ⟨?_, by simpa using hl⟩
      rw [List.length_cons, List.take_succ_cons, ht]

/-- Skipped characters are ignored outright, exactly like `i += pat_len`. -/
theorem findGo_skip (pattern : Str) :
    ∀ (skip : ℕ) (rem : Str) (i : ℕ) (ts : Option Str) (d : ℕ),
      findTextOccGo pattern i skip ts d rem =
        findTextOccGo pattern (i + skip) 0 ts d (rem.drop skip) := by
  intro skip
  induction skip with
  | zero => intro rem i ts d; rw [Nat.add_zero, List.drop_zero]

  | succ skip ih =>
    intro rem i ts d
    cases rem with
    | nil =>
      rw [List.drop_nil]
      cases ts with
      | none => rw [findTextOccGo, findTextOccGo]
      | some content => rw [findTextOccGo, findTextOccGo]
    | cons c rest =>
      cases ts with
      | none =>
        rw [findTextOccGo, if_pos (by omega)]
        rw [show skip + 1 - 1 = skip from rfl, ih rest (i + 1) none d,
          List.drop_succ_cons, show i + 1 + skip = i + (skip + 1) by omega]
      | some content =>
        rw [findTextOccGo, if_pos (by omega)]
        rw [show skip + 1 - 1 = skip from rfl, ih rest (i + 1) (some content) d,
          List.drop_succ_cons, show i + 1 + skip = i + (skip + 1) by omega]

theorem refScanStep_some_other {c : Char} (hlt : c ≠ '<') (hgt : c ≠ '>')
    (content : Str) (d : ℕ) :
    refScanStep (some content, d) c = (some (content ++ [c]), d) := by
  rw [refScanStep]
  simp [hlt, hgt]

/-- Every span the occurrence scanner reports, starting from a state that
matches the reference automaton, is a pattern occurrence lying entirely in
text outside anchors (for a `<`-free pattern). -/
theorem findGo_safe {pattern : Str} (hpat : pattern ≠ []) (hlt : '<' ∉ pattern)
    (html : Str) :
    ∀ (n : ℕ) (i : ℕ), html.length - i ≤ n → i ≤ html.length →
      ∀ (ts : Option Str) (d : ℕ), refStateAt html i = (ts, d) →
        ∀ se ∈ findTextOccGo pattern i 0 ts d (html.drop i),
          se.2 = se.1 + pattern.length ∧
          (html.drop se.1).take pattern.length = pattern ∧
          ∀ k, se.1 ≤ k → k < se.2 → refStateAt html k = (none, 0) := by
  intro n
  induction n with
  | zero =>
    intro i hn hpos ts d _ se hse
    rw [show i = html.length by omega, List.drop_length] at hse
    cases ts <;> simp [findTextOccGo] at hse
  | succ n ih =>
    intro i hn hpos ts d hst se hse
    by_cases hend : i < html.length
    case neg =>
      rw [show i = html.length by omega, List.drop_length] at hse
      cases ts <;> simp [findTextOccGo] at hse
    case pos =>
    have hdrop : html.drop i = html.getD i ' ' :: html.drop (i + 1) := by
      rw [List.drop_eq_getElem_cons hend, List.getD_eq_getElem _ _ hend]
    set c := html.getD i ' ' with hc
    cases ts with
    | none =>
      by_cases hcl : c = '<'
      · rw [hdrop, findTextOccGo, if_neg (by omega)] at hse
        simp only [hcl, if_pos rfl] at hse
        have hnext : refStateAt html (i + 1) = (some [], d) := by
          rw [refStateAt_succ hend, hst, ← hc, hcl]
          rfl
        exact ih (i + 1) (by omega) (by omega) (some []) d hnext se hse
      · by_cases hm : (d = 0 ∧ isPrefixL pattern (c :: html.drop (i + 1)) = true)
        · obtain ⟨hd0, hpre⟩ := hm
          subst hd0
          rw [hdrop, findTextOccGo, if_neg (by omega), if_neg hcl,
            if_pos ⟨rfl, hpre⟩] at hse
          have hslice : (html.drop i).take pattern.length = pattern ∧
              pattern.length ≤ (html.drop i).length := by
            rw [hdrop]
            exact isPrefixL_take hpre
          have hLpos : 1 ≤ pattern.length := by
            have := List.length_pos.mpr hpat
            omega
          have hiL : i + pattern.length ≤ html.length := by
            have h2 := hslice.2
            rw [List.length_drop] at h2
            omega
          have hchars : ∀ j, j < pattern.length → html.getD (i + j) ' ' ≠ '<' := by
            intro j hj hcontra
            apply hlt
            have : pattern.getD j ' ' = html.getD (i + j) ' ' := by
              conv_lhs => rw [← hslice.1]
              rw [List.getD_eq_getElem?_getD, List.getD_eq_getElem?_getD,
                List.getElem?_take, if_pos hj, List.getElem?_drop]
            rw [← this] at hcontra
            rw [← hcontra]
            rw [List.getD_eq_getElem _ _ (by omega)]
            exact List.getElem_mem _
          have hspan := refStateAt_span html pattern.length i hst hchars
          rw [List.mem_cons] at hse
          rcases hse with rfl | hse
          · refine ⟨rfl, hslice.1, ?_⟩
            intro k hk1 hk2
            have : k = i + (k - i) := by omega
            rw [this]
            exact hspan (k - i) (by omega)
          · rw [findGo_skip, List.drop_drop] at hse
            rw [show i + 1 + (pattern.length - 1) = i + pattern.length by omega] at hse
            exact ih (i + pattern.length) (by omega) (by omega) none 0
              (hspan pattern.length le_rfl) se hse
        · rw [hdrop, findTextOccGo, if_neg (by omega), if_neg hcl, if_neg hm] at hse
          have hnext : refStateAt html (i + 1) = (none, d) := by
            rw [refStateAt_succ hend, hst, ← hc]
            exact refScanStep_text hcl
          exact ih (i + 1) (by omega) (by omega) none d hnext se hse
    | some content =>
      by_cases hcl : c = '<'
      · rw [hdrop, findTextOccGo, if_neg (by omega)] at hse
        simp only [hcl, if_pos rfl] at hse
        have hnext : refStateAt html (i + 1) = (some [], d) := by
          rw [refStateAt_succ hend, hst, ← hc, hcl]
          rfl
        exact ih (i + 1) (by omega) (by omega) (some []) d hnext se hse
      · by_cases hgt : c = '>'
        · rw [hdrop, findTextOccGo, if_neg (by omega), if_neg hcl, if_pos hgt] at hse
          have hnext : refStateAt html (i + 1) = (none, tagDepthDelta content d) := by
            rw [refStateAt_succ hend, hst, ← hc, hgt]
            rfl
          exact ih (i + 1) (by omega) (by omega) none (tagDepthDelta content d)
            hnext se hse
        · rw [hdrop, findTextOccGo, if_neg (by omega), if_neg hcl, if_neg hgt] at hse
          have hnext : refStateAt html (i + 1) = (some (content ++ [c]), d) := by
            rw [refStateAt_succ hend, hst, ← hc]
            exact refScanStep_some_other hcl hgt content d
          exact ih (i + 1) (by omega) (by omega) (some (content ++ [c])) d
            hnext se hse

/-- C5 (amended): Glossary link placement safety.  For a non-empty pattern
containing no `<`, every span `_find_text_occurrences` returns — hence
every span `apply_glossary_links` replaces — is an occurrence of the
pattern whose every position lies outside tag delimiters and outside open
anchor elements (reference automaton state `(none, 0)`).  The claim as
frozen, quantifying over all patterns, fails for patterns containing `<`
(see the counterexample). -/
theorem find_text_occurrences_text_nodes (html pattern : Str)
    (hpat : pattern ≠ []) (hlt : '<' ∉ pattern) :
    ∀ se ∈ find_text_occurrences html pattern,
      se.2 = se.1 + pattern.length ∧
      (html.drop se.1).take pattern.length = pattern ∧
      ∀ k, se.1 ≤ k → k < se.2 → refStateAt html k = (none, 0) := by
  intro se hse
  refine findGo_safe hpat hlt html html.length 0 (by omega) (by omega)
    none 0 rfl se ?_
  rw [List.drop_zero]
  exact hse

/-- Concrete instantiation of C5: the single-character pattern `"y"` in
`"<b>x</b>y"` is reported exactly at its text-node occurrence. -/
theorem find_text_occurrences_text_nodes_witness :
    (8, 9).2 = (8, 9).1 + "y".data.length ∧
      (("<b>x</b>y".data.drop (8, 9).1).take "y".data.length = "y".data) ∧
      ∀ k, (8, 9).1 ≤ k → k < (8, 9).2 →
        refStateAt "<b>x</b>y".data k = (none, 0) :=
  find_text_occurrences_text_nodes "<b>x</b>y".data "y".data (by decide)
    (by decide) (8, 9) (by decide)

/-- Counterexample to C5 as frozen: with the pattern `"q<a >y"` (which
contains `<`), the scanner reports the span `(0, 6)` of
`"q<a >y</a>"`, and `apply_glossary_links` replaces that span, although
position 2 lies inside a tag — the inserted anchor overlaps the existing
`<a>` element. -/
theorem find_text_occurrences_tag_overlap :
    (spec_replacement "q<a >y</a>".data
        (fun t => if t = "T".data then
          some ⟨"t".data, none, "B".data⟩ else none)
        ⟨"q<a >y".data, 0, "T".data⟩).map (fun r => (r.1, r.2.1)) =
      some (0, 6) ∧
    refStateAt "q<a >y</a>".data 2 ≠ (none, 0) := by
  decide

/-! ## Data model and line builder (disassembly.py 13-160, 366-722)

Items, subroutines and rendered lines as in §3 of the design.  Python dict
fields read with `.get` default to `none`/`[]`; string truthiness (empty =
absent) is tested with `≠ []`.  `sub_lookup`/`item_by_addr` are dicts built
by insertion, so a duplicate address keeps the last entry. -/

inductive ItemType
  | code
  | byte
  | word
  | string
  | other
deriving DecidableEq

structure Item where
  addr : ℕ
  binary_addr : Option ℕ := none
  type : ItemType := ItemType.other
  mnemonic : Str := []
  operand : Str := []
  bytes : List ℕ := []
  values : List ℕ := []
  string : Str := []
  labels : List Str := []
  comments_before : List Str := []
  comments_after : List Str := []
  comment_inline : Option Str := none
  references : List ℕ := []
  target : Option ℕ := none
  target_label : Option Str := none
deriving DecidableEq

structure Subroutine where
  addr : ℕ
  title : Str := []
  description : Str := []
  on_entry : List (Str × Str) := []
  on_exit : List (Str × Str) := []
  fall_through : Bool := false
deriving DecidableEq

structure Line where
  id : Option Str := none
  addr : Option Str := none
  addr_id : Option Str := none
  binary_addr : Option Str := none
  binary_addr_id : Option Str := none
  html : Str := []
  banner : Bool := false
  inline_comment : Option Str := none
  max_width : Option Int := none
deriving DecidableEq

structure Section where
  lines : List Line
  has_binary_addr : Bool
deriving DecidableEq

/-- `sub_lookup[addr]` — dict insertion means the last entry wins. -/
def subLookup (subs : List Subroutine) (a : ℕ) : Option Subroutine :=
  subs.reverse.find? (fun s => s.addr == a)

/-- `item_by_addr[addr]`. -/
def itemByAddr (items : List Item) (a : ℕ) : Option Item :=
  items.reverse.find? (fun it => it.addr == a)

/-- Python `pattern in text`. -/
def containsSub (text pat : Str) : Bool :=
  text.tails.any (fun t => isPrefixL pat t)

/-- `str.upper` (ASCII model). -/
def toUpperStr (s : Str) : Str := s.map Char.toUpper

/-- `str.strip()`. -/
def stripWs (s : Str) : Str := ((s.dropWhile Char.isWhitespace).reverse.dropWhile Char.isWhitespace).reverse

/-- `str(n)` for a natural. -/
def natRepr (n : ℕ) : Str := (Nat.repr n).data

/-- `f"{v:02X}"` for a byte value. -/
def hex2 (v : ℕ) : Str := [hexDig (v / 16 % 16), hexDig (v % 16)]

/-- `f"%{v:08b}"` for a byte value. -/
def bits8 (v : ℕ) : Str :=
  (List.range 8).map (fun k => if v / 2 ^ (7 - k) % 2 = 1 then '1' else '0')

/-- `_is_reference_comment(text)` (disassembly.py 459-461). -/
def is_reference_comment (text : Str) : Bool :=
  isPrefixL ['&'] text && containsSub text "referenced".data

/-- `_is_banner_line(text)` (disassembly.py 464-467). -/
def is_banner_line (text : Str) : Bool :=
  decide (3 < (stripWs text).length) && (stripWs text).all (fun c => c == '*')

/-- `_is_banner_content(text, sub)` (disassembly.py 470-476). -/
def is_banner_content (text : Str) (sub : Subroutine) : Bool :=
  decide (sub.title ≠ []) && isPrefixL sub.title text

/-- The `_CONTROL_CHARS` table (disassembly.py 662-669). -/
def CONTROL_CHARS : List (ℕ × Str) :=
  [(0, "NUL".data), (1, "SOH".data), (2, "STX".data), (3, "ETX".data),
   (4, "EOT".data), (5, "ENQ".data), (6, "ACK".data), (7, "BEL".data),
   (8, "BS".data), (9, "HT".data), (10, "LF".data), (11, "VT".data),
   (12, "FF".data), (13, "CR".data), (14, "SO".data), (15, "SI".data),
   (16, "DLE".data), (17, "DC1".data), (18, "DC2".data), (19, "DC3".data),
   (20, "DC4".data), (21, "NAK".data), (22, "SYN".data), (23, "ETB".data),
   (24, "CAN".data), (25, "EM".data), (26, "SUB".data), (27, "ESC".data),
   (28, "FS".data), (29, "GS".data), (30, "RS".data), (31, "US".data),
   (32, "SP".data), (127, "DEL".data)]

def controlLookup (v : ℕ) : Option Str :=
  (CONTROL_CHARS.find? (fun p => p.1 == v)).map (·.2)

/-- `"  ".join` and friends. -/
def joinStr (sep : Str) (parts : List Str) : Str := List.intercalate sep parts

/-- `_immediate_tooltip(value)` (disassembly.py 677-684). -/
def immediate_tooltip (value : ℕ) : Str :=
  let parts := [natRepr value, '&' :: hex2 value, '%' :: bits8 value]
  let parts :=
    match controlLookup value with
    | some name => parts ++ [name]
    | none =>
      if 33 ≤ value ∧ value ≤ 126 then parts ++ [['\'', Char.ofNat value, '\'']]
      else parts
  joinStr "  ".data parts

/-- `_is_immediate(operand, item)` (disassembly.py 672-674). -/
def is_immediate (operand : Str) (it : Item) : Bool :=
  isPrefixL ['#'] operand && decide (it.bytes.length = 2)

/-- Python `s.replace(old, new, 1)`. -/
def replaceFirst (old new : Str) : Str → Str
  | [] => if isPrefixL old [] then new else []
  | c :: r =>
    if isPrefixL old (c :: r) then new ++ (c :: r).drop old.length
    else c :: replaceFirst old new r

/-- `_linkify_operand(operand, item, valid_addrs)` (disassembly.py 595-617). -/
def linkify_operand (operand : Str) (it : Item) (validAddrs : List ℕ) : Str :=
  match it.target_label, it.target with
  | some target_label, some target =>
    let target_addr := '&' :: hex4 target
    let escaped_operand := escapeList operand
    let escaped_label := escapeList target_label
    if containsSub escaped_operand escaped_label then
      let replacement :=
        if target ∈ validAddrs then
          "<a href=\"#addr-".data ++ hex4 target ++ "\" data-tip=\"".data ++
            target_addr ++ "\">".data ++ escaped_label ++ "</a>".data
        else
          "<span class=\"ext-label\" data-tip=\"".data ++ target_addr ++
            "\">".data ++ escaped_label ++ "</span>".data
      replaceFirst escaped_label replacement escaped_operand
    else escapeList operand
  | _, _ => escapeList operand

/-- `_render_code(item, valid_addrs)` (disassembly.py 578-592). -/
def render_code (it : Item) (validAddrs : List ℕ) : Str :=
  let mnemonic := escapeList (toUpperStr it.mnemonic)
  let base := "    <span class=\"opcode\">".data ++ mnemonic ++ "</span>".data
  if it.operand ≠ [] then
    let operand_html := linkify_operand it.operand it validAddrs
    let operand_html :=
      if is_immediate it.operand it then
        "<span class=\"imm\" data-tip=\"".data ++
          escapeList (immediate_tooltip (it.bytes.getD 1 0)) ++ "\">".data ++
          operand_html ++ "</span>".data
      else operand_html
    base ++ " <span class=\"operand\">".data ++ operand_html ++ "</span>".data
  else base

/-- The grouping loop of `_group_values` (disassembly.py 239-260). -/
def groupGo (value_width : ℕ) (max_width prefix_width : Int) :
    List Str → List Str → Int → List (List Str)
  | [], current, _ => if current ≠ [] then [current] else []
  | p :: ps, current, width =>
    if width + ((if current ≠ [] then 2 else 0) + value_width) > max_width ∧
        current ≠ [] then
      current :: groupGo value_width max_width prefix_width ps [p]
        (prefix_width + value_width)
    else
      groupGo value_width max_width prefix_width ps (current ++ [p])
        (width + ((if current ≠ [] then 2 else 0) + value_width))

def group_values (parts : List Str) (prefix_width value_width : ℕ)
    (max_width : Int) : List (List Str) :=
  groupGo value_width max_width prefix_width parts [] prefix_width

/-- `_render_bytes(item, max_width)` (disassembly.py 687-701). -/
def render_bytes (it : Item) (max_width : Int) : Str :=
  let parts := it.values.map (fun v =>
    "<span data-tip=\"".data ++ escapeList (immediate_tooltip v) ++
      "\">&amp;".data ++ hex2 v ++ "</span>".data)
  let line_groups := group_values parts 9 3 max_width
  let joined := line_groups.map (joinStr ", ".data)
  "    <span class=\"directive\">EQUB</span> ".data ++
    joinStr (",\n".data ++ List.replicate 9 ' ') joined

/-- `_render_words(item, max_width)` (disassembly.py 704-713). -/
def render_words (it : Item) (max_width : Int) : Str :=
  let parts := it.values.map (fun v => escapeList ('&' :: hex4 v))
  let line_groups := group_values parts 9 5 max_width
  let joined := line_groups.map (joinStr ", ".data)
  "    <span class=\"directive\">EQUW</span> ".data ++
    joinStr (",\n".data ++ List.replicate 9 ' ') joined

/-- `_render_string(item)` (disassembly.py 716-721). -/
def render_string (it : Item) : Str :=
  "    <span class=\"directive\">EQUS</span> <span class=\"string\">&quot;".data ++
    escapeList it.string ++ "&quot;</span>".data

/-- `_render_content(item, valid_addrs, max_width)` (disassembly.py 565-575). -/
def render_content (it : Item) (validAddrs : List ℕ) (max_width : Int) : Str :=
  match it.type with
  | ItemType.code => render_code it validAddrs
  | ItemType.byte => render_bytes it max_width
  | ItemType.word => render_words it max_width
  | ItemType.string => render_string it
  | ItemType.other => []

/-- `sorted(references)` in `_render_ref_popup`: the come-from addresses are
listed in ascending order. -/
def refs_sorted (references : List ℕ) : List ℕ := sortAsc references

/-- `_render_ref_popup(references, item_by_addr)` (disassembly.py 437-456). -/
def render_ref_popup (references : List ℕ) (items : List Item) : Str :=
  let rs := refs_sorted references
  let entries := rs.map (fun ref_addr =>
    let mnemonic :=
      match itemByAddr items ref_addr with
      | some ref_item =>
        if ref_item.type = ItemType.code then toUpperStr ref_item.mnemonic
        else "ref".data
      | none => "ref".data
    "<a href=\"#addr-".data ++ hex4 ref_addr ++ "\">← ".data ++
      hex4 ref_addr ++ [' '] ++ escapeList mnemonic ++ "</a>".data)
  joinStr []
    (("<span class=\"ref-badge\">←".data ++ natRepr rs.length ++ "</span>".data) ::
      "<span class=\"ref-popup\">".data :: entries ++ ["</span>".data])

/-- The rows of `_render_register_rows(heading, regs, …)` before joining
(disassembly.py 548-562); the first row carries the row-spanning heading. -/
def render_register_rows_list (heading : Str) (regs : List (Str × Str))
    (v s : List ℕ) : List Str :=
  regs.enum.map (fun p =>
    let th :=
      if p.1 = 0 then
        "<th rowspan=\"".data ++ natRepr regs.length ++ "\">".data ++
          escapeList heading ++ "</th>".data
      else []
    "<tr>".data ++ th ++ "<td>".data ++ escapeList (toUpperStr p.2.1) ++
      "</td><td>".data ++ linkify_comment_text p.2.2 v s ++ "</td></tr>".data)

def render_register_rows (heading : Str) (regs : List (Str × Str))
    (v s : List ℕ) : Str :=
  joinStr "\n".data (render_register_rows_list heading regs v s)

/-- Grouping of `_render_plaintext`'s lines into blank-separated blocks
(disassembly.py 519-530). -/
def blocksGo : List Str → List Str → List (List Str)
  | [], current => if current ≠ [] then [current] else []
  | l :: ls, current =>
    if stripWs l = [] then
      (if current ≠ [] then [current] else []) ++ blocksGo ls []
    else blocksGo ls (current ++ [l])

/-- `_render_plaintext(text, valid_addrs, sorted_addrs)` (disassembly.py
512-545). -/
def render_plaintext (text : Str) (v s : List ℕ) : Str :=
  let blocks := blocksGo (List.splitOn '\n' text) []
  let parts := blocks.map (fun block =>
    if block.all (fun line => isPrefixL "  ".data line) then
      "<pre class=\"sub-detail\">".data ++
        linkify_comment_text (joinStr "\n".data block) v s ++ "</pre>".data
    else
      "<p>".data ++
        linkify_comment_text (joinStr " ".data (block.map stripWs)) v s ++
        "</p>".data)
  joinStr "\n".data parts

/-- `_render_subroutine_header(sub, …)` (disassembly.py 479-509).  On its
only call path `sub["title"]` is truthy, so the `sub.get("name")` fallback
of the source is unreachable. -/
def render_subroutine_header (sub : Subroutine) (v s : List ℕ) : Str :=
  let parts := ["<div class=\"sub-header\">".data,
    "<h3>".data ++ escapeList sub.title ++ "</h3>".data]
  let parts :=
    if sub.description ≠ [] then
      parts ++ ["<div class=\"sub-desc\">".data ++
        render_plaintext sub.description v s ++ "</div>".data]
    else parts
  let parts :=
    if sub.on_entry ≠ [] ∨ sub.on_exit ≠ [] then
      parts ++ ["<div class=\"sub-registers\"><table>".data] ++
        (if sub.on_entry ≠ [] then
          [render_register_rows "On Entry".data sub.on_entry v s] else []) ++
        (if sub.on_exit ≠ [] then
          [render_register_rows "On Exit".data sub.on_exit v s] else []) ++
        ["</table></div>".data]
    else parts
  joinStr "\n".data (parts ++ ["</div>".data])

/-- `_empty_line()` (disassembly.py 433-434). -/
def empty_line : Line := {}

/-- One output line of `_append_comment_lines` for one source comment line
(disassembly.py 394-430). -/
def commentLineFor (line_text : Str) (max_width : Int) (v s : List ℕ) : Line :=
  if stripWs line_text = [] then empty_line
  else if isPrefixL "  ".data line_text then
    { html := "<span class=\"comment\">; ".data ++
        linkify_comment_text line_text v s ++ "</span>".data }
  else if (2 + line_text.length : Int) ≤ max_width then
    { html := "<span class=\"comment\">; ".data ++
        linkify_comment_text line_text v s ++ "</span>".data }
  else
    let wrapped := wrap_text line_text (max_width - 2) 2 max_width
    let partsList := linkify_comment_text (wrapped.headD []) v s ::
      wrapped.tail.map (fun cont => "\n; ".data ++ linkify_comment_text cont v s)
    { html := "<span class=\"comment\">; ".data ++ joinStr [] partsList ++
        "</span>".data }

/-- `_append_comment_lines` for one comment block: one `Line` per
newline-separated source line. -/
def commentBlockLines (comment_text : Str) (max_width : Int) (v s : List ℕ) :
    List Line :=
  (List.splitOn '\n' comment_text).map (fun lt => commentLineFor lt max_width v s)

/-- The filtered `comments` of `_process_item` (disassembly.py 94-97). -/
def itemComments (it : Item) : List Str :=
  it.comments_before.filter (fun c => !is_reference_comment c && !is_banner_line c)

/-- Whether the item opens a titled subroutine (`sub and sub.get("title")`). -/
def itemTitled (subs : List Subroutine) (it : Item) : Bool :=
  match subLookup subs it.addr with
  | some s0 => decide (s0.title ≠ [])
  | none => false

/-- The banner line emitted for a titled subroutine (disassembly.py
102-107). -/
def bannerLine (it : Item) (s0 : Subroutine) (validAddrs sortedA : List ℕ) : Line :=
  { id := some ("addr-".data ++ hex4 it.addr),
    html := render_subroutine_header s0 validAddrs sortedA,
    banner := true }

/-- The header lines of `_process_item` (disassembly.py 99-121). -/
def itemHeadLines (it : Item) (subs : List Subroutine)
    (validAddrs sortedA : List ℕ) (max_width : Int) : List Line :=
  match subLookup subs it.addr with
  | some s0 =>
    if s0.title ≠ [] then
      empty_line :: bannerLine it s0 validAddrs sortedA ::
        ((itemComments it).filter (fun c => !is_banner_content c s0)).flatMap
          (fun ct => commentBlockLines ct max_width validAddrs sortedA)
    else
      (if itemComments it ≠ [] then [empty_line] else []) ++
        (itemComments it).flatMap
          (fun ct => commentBlockLines ct max_width validAddrs sortedA)
  | none =>
    (if itemComments it ≠ [] then [empty_line] else []) ++
      (itemComments it).flatMap
        (fun ct => commentBlockLines ct max_width validAddrs sortedA)

/-- The label lines of `_process_item` (disassembly.py 123-139). -/
def itemLabelLines (it : Item) (subs : List Subroutine) (items : List Item) :
    List Line :=
  it.labels.enum.map (fun p =>
    { id := if p.1 = 0 ∧ itemTitled subs it = false
        then some ("addr-".data ++ hex4 it.addr) else none,
      addr := if p.1 = 0 then some (hex4 it.addr) else none,
      addr_id := some ("addr-".data ++ hex4 it.addr),
      binary_addr := if p.1 = 0 then it.binary_addr.map hex4 else none,
      binary_addr_id := it.binary_addr.map (fun b => "addr-".data ++ hex4 b),
      html := "<span class=\"label\">.".data ++ escapeList p.2 ++
        (if it.references ≠ [] then render_ref_popup it.references items
          else []) ++
        "</span>".data })

/-- The main content line of `_process_item` (disassembly.py 141-153). -/
def itemContentLine (it : Item) (subs : List Subroutine)
    (validAddrs : List ℕ) (max_width : Int) : Line :=
  { id := if (itemTitled subs it || decide (it.labels ≠ [])) = false
      then some ("addr-".data ++ hex4 it.addr) else none,
    addr := if decide (it.labels ≠ []) = false then some (hex4 it.addr)
      else none,
    addr_id := some ("addr-".data ++ hex4 it.addr),
    binary_addr := if decide (it.labels ≠ []) = false
      then it.binary_addr.map hex4 else none,
    binary_addr_id := it.binary_addr.map (fun b => "addr-".data ++ hex4 b),
    html := render_content it validAddrs max_width,
    inline_comment := it.comment_inline,
    max_width := some max_width }

/-- `_process_item(item, …, max_width)` (disassembly.py 73-160). -/
def process_item (it : Item) (subs : List Subroutine) (items : List Item)
    (validAddrs sortedA : List ℕ) (max_width : Int) : List Line :=
  itemHeadLines it subs validAddrs sortedA max_width ++
    itemLabelLines it subs items ++
    [itemContentLine it subs validAddrs max_width] ++
    it.comments_after.flatMap
      (fun ct => commentBlockLines ct max_width validAddrs sortedA)

/-- `_find_relocated_sections(items, sub_lookup)` (disassembly.py 366-386). -/
def relocGo (subs : List Subroutine) : List Item → Option ℕ → Bool → List ℕ
  | [], current, hasb =>
    match current with
    | some cs => if hasb then [cs] else []
    | none => []
  | it :: rest, current, hasb =>
    let sub := subLookup subs it.addr
    let isTitled : Bool :=
      match sub with
      | some s0 => decide (s0.title ≠ [])
      | none => false
    if isTitled then
      (match current with
        | some cs => if hasb then [cs] else []
        | none => []) ++
        relocGo subs rest (some it.addr) it.binary_addr.isSome
    else relocGo subs rest current (hasb || it.binary_addr.isSome)

def find_relocated_sections (items : List Item) (subs : List Subroutine) :
    List ℕ :=
  relocGo subs items none false

/-- The `fall through ↓` marker line (disassembly.py 44-51, 59-67). -/
def fallThroughLine : Line :=
  { html := "<span class=\"fall-through\">fall through ↓</span>".data }

/-- The main item loop of `process_disassembly` (disassembly.py 37-67):
`current` is `current_sub`, `inRel` is `in_relocated`. -/
def buildGo (subs : List Subroutine) (items_all : List Item)
    (validAddrs sortedA : List ℕ) (relocated : List ℕ) :
    Option Subroutine → Bool → List Item → List Line
  | current, _, [] =>
    if (match current with
        | some cs => cs.fall_through
        | none => false) then [fallThroughLine] else []
  | current, inRel, it :: rest =>
    let sub := subLookup subs it.addr
    let pre :=
      if sub.isSome ∧ (match current with
          | some cs => cs.fall_through
          | none => false) = true then [fallThroughLine] else []
    let current2 := if sub.isSome then sub else current
    let isTitled : Bool :=
      match sub with
      | some s0 => decide (s0.title ≠ [])
      | none => false
    let inRel2 := if isTitled then decide (it.addr ∈ relocated) else inRel
    let mw : Int := if inRel2 then RELOCATED_MAX_WIDTH else CONTENT_MAX_WIDTH
    pre ++ process_item it subs items_all validAddrs sortedA mw ++
      buildGo subs items_all validAddrs sortedA relocated current2 inRel2 rest

/-- The flat line list `process_disassembly` builds before alignment. -/
def build_lines (subs : List Subroutine) (items : List Item) : List Line :=
  buildGo subs items (items.map (·.addr)) (sortedAddrs (items.map (·.addr)))
    (find_relocated_sections items subs) none false items
/-- Python truthiness of `line.get("_inline_comment")`: present and
non-empty. -/
def truthyInline (l : Line) : Bool :=
  match l.inline_comment with
  | some c => decide (c ≠ [])
  | none => false

/-- `'<span class="label">' in str(line.get("html", ""))`. -/
def is_label_line (l : Line) : Bool :=
  containsSub l.html "<span class=\"label\">".data

/-- The loop of `_split_into_blocks` (disassembly.py 315-338): `current`
is the block being accumulated. -/
def splitBlocksGo : List (ℕ × Line) → List (ℕ × Line) → List (List (ℕ × Line))
  | [], current => if current ≠ [] then [current] else []
  | p :: rest, current =>
    if is_label_line p.2 || p.2.banner then
      (if current ≠ [] then [current] else []) ++ splitBlocksGo rest [p]
    else splitBlocksGo rest (current ++ [p])

/-- `_split_into_blocks(lines)`: blocks of `(index, line)` pairs. -/
def split_into_blocks (lines : List Line) : List (List (ℕ × Line)) :=
  splitBlocksGo lines.enum []

/-- `max(_visible_width(line["html"]) for _, line in commented)` for one
block (disassembly.py 277); `foldr max 0` agrees with Python `max` on the
non-empty lists the source applies it to. -/
def blockMax (block : List (ℕ × Line)) : ℕ :=
  (((block.filter (fun p => truthyInline p.2)).map
    (fun p => visible_width p.2.html)).foldr max 0)

/-- The merge step of `_align_inline_comments` for one commented line
(disassembly.py 280-307).  `maxw` is the block maximum, which dominates
this line's own width on every call path, so the truncated subtraction in
the padding agrees with Python. -/
def mergeInline (maxw : ℕ) (l : Line) (v s : List ℕ) : Line :=
  let comment := l.inline_comment.getD []
  let line_max : Int := l.max_width.getD CONTENT_MAX_WIDTH
  let code_width := visible_width l.html
  let padding : Str := List.replicate (maxw - code_width + 2) ' '
  let comment_col : ℕ := maxw + 2 + 2
  let total_width : ℕ := comment_col + comment.length
  if (total_width : Int) ≤ line_max then
    { l with
      html := l.html ++ padding ++ "<span class=\"comment\">; ".data ++
        (linkify_comment_text comment v s ++ "</span>".data),
      inline_comment := none }
  else
    let first_budget : Int := line_max - (comment_col : Int)
    let wrapped := wrap_text comment first_budget (comment_col : Int) line_max
    let indent_str : Str := List.replicate comment_col ' '
    let parts := linkify_comment_text (wrapped.headD []) v s ::
      wrapped.tail.map (fun cont =>
        '\n' :: indent_str ++ linkify_comment_text cont v s)
    { l with
      html := l.html ++ padding ++ "<span class=\"comment\">; ".data ++
        (joinStr [] parts ++ "</span>".data),
      inline_comment := none }

/-- The final clean-up of `_align_inline_comments` (disassembly.py
310-312): the internal keys are removed from every line. -/
def clearInternal (l : Line) : Line :=
  { l with inline_comment := none, max_width := none }

/-- The per-line action of `_align_inline_comments` in the block with
maximum commented width `maxw`: a line carrying a (truthy) deferred
comment is merged, every line loses the internal keys.  When a block has
no commented line the source skips it, which coincides with applying this
to each of its (necessarily uncommented) lines. -/
def alignLine (v s : List ℕ) (maxw : ℕ) (p : ℕ × Line) : Line :=
  if truthyInline p.2 then clearInternal (mergeInline maxw p.2 v s)
  else clearInternal p.2

/-- `_align_inline_comments(lines, valid_addrs, sorted_addrs)`
(disassembly.py 263-312), as a function on the line list. -/
def align_inline_comments (lines : List Line) (v s : List ℕ) : List Line :=
  ((split_into_blocks lines).map
    (fun b => b.map (alignLine v s (blockMax b)))).flatten

/-- Python truthiness of `line.get("binary_addr")`. -/
def truthyBinary (l : Line) : Bool :=
  match l.binary_addr with
  | some b => decide (b ≠ [])
  | none => false

/-- `_make_section(lines)` (disassembly.py 389-391). -/
def make_section (lines : List Line) : Section :=
  { lines := lines, has_binary_addr := lines.any truthyBinary }

/-- The loop of `_split_into_sections` (disassembly.py 341-363). -/
def sectionsGo : List Line → List Line → List Section
  | [], current => if current ≠ [] then [make_section current] else []
  | l :: ls, current =>
    if l.banner && decide (current ≠ []) then
      make_section current :: sectionsGo ls [l]
    else sectionsGo ls (current ++ [l])

def split_into_sections (lines : List Line) : List Section :=
  sectionsGo lines []

/-- `process_disassembly(data)` (disassembly.py 13-70): build the line
list, align inline comments, split into sections.  `valid_addrs` is the
set of item addresses (consumed only through membership) and
`sorted_addrs` its sorted deduplication. -/
def process_disassembly (subs : List Subroutine) (items : List Item) :
    List Section :=
  split_into_sections
    (align_inline_comments (build_lines subs items)
      (items.map (fun it => it.addr))
      (sortedAddrs (items.map (fun it => it.addr))))
/-! ## The block aligner as a positional transformation

`_split_into_blocks` partitions the enumerated line list in order, and the
aligner rewrites each entry in place; flattening the per-block maps is a
positional transformation of the original list. -/

theorem splitBlocksGo_flatten :
    ∀ (xs cur : List (ℕ × Line)), (splitBlocksGo xs cur).flatten = cur ++ xs := by
  intro xs
  induction xs with
  | nil =>
    intro cur
    rw [splitBlocksGo]
    by_cases h : cur = []
    · subst h; rfl
    · rw [if_pos h]; simp
  | cons p rest ih =>
    intro cur
    rw [splitBlocksGo]
    by_cases hl : (is_label_line p.2 || p.2.banner) = true
    · rw [if_pos hl, List.flatten_append, ih [p]]
      by_cases h : cur = []
      · subst h; rfl
      · rw [if_pos h]; simp
    · rw [if_neg hl, ih (cur ++ [p])]
      simp

theorem split_into_blocks_flatten (lines : List Line) :
    (split_into_blocks lines).flatten = lines.enum := by
  rw [split_into_blocks, splitBlocksGo_flatten]
  rfl

/-- Reading a flatten of per-block maps at a position recovers the block
and the original entry at that position. -/
theorem flatten_map_getElem {α β : Type} (g : List α → α → β) :
    ∀ (bs : List (List α)) (j : ℕ) (y : β),
      ((bs.map (fun b => b.map (g b))).flatten)[j]? = some y →
      ∃ b x, b ∈ bs ∧ x ∈ b ∧ (bs.flatten)[j]? = some x ∧ y = g b x := by
  intro bs
  induction bs with
  | nil => intro j y h; simp at h
  | cons b0 rest ih =>
    intro j y h
    rw [List.map_cons, List.flatten_cons, List.getElem?_append] at h
    rw [List.flatten_cons, List.getElem?_append]
    by_cases hj : j < (b0.map (g b0)).length
    · rw [if_pos hj] at h
      have hj' : j < b0.length := by simpa using hj
      rw [List.getElem?_map] at h
      rw [if_pos hj']
      cases hx : b0[j]? with
      | none => rw [hx] at h; cases h
      | some x =>
        rw [hx] at h
        refine ⟨b0, x, List.mem_cons_self _ _, List.getElem?_mem hx, rfl, ?_⟩
        simpa using h.symm
    · rw [if_neg hj] at h
      have hj' : ¬ j < b0.length := by simpa using hj
      rw [if_neg hj']
      have hlen : (b0.map (g b0)).length = b0.length := by simp
      rw [hlen] at h
      obtain ⟨b, x, hb, hxb, hget, hy⟩ := ih (j - b0.length) y h
      exact ⟨b, x, List.mem_cons_of_mem _ hb, hxb, hget, hy⟩

/-- Conversely, every entry of a block is found at some position of the
flatten, and the per-block map rewrites exactly that position. -/
theorem flatten_map_mem {α β : Type} (g : List α → α → β) :
    ∀ (bs : List (List α)) (b : List α), b ∈ bs → ∀ x ∈ b,
      ∃ j : ℕ, (bs.flatten)[j]? = some x ∧
        ((bs.map (fun b => b.map (g b))).flatten)[j]? = some (g b x) := by
  intro bs
  induction bs with
  | nil => intro b hb; simp at hb
  | cons b0 rest ih =>
    intro b hb x hx
    rcases List.mem_cons.mp hb with rfl | hb
    · obtain ⟨k, hk⟩ := List.getElem?_of_mem hx
      have hklt : k < b.length := by
        by_contra hge
        rw [List.getElem?_eq_none (by omega)] at hk
        cases hk
      refine ⟨k, ?_, ?_⟩
      · rw [List.flatten_cons, List.getElem?_append, if_pos hklt, hk]
      · rw [List.map_cons, List.flatten_cons, List.getElem?_append,
          if_pos (by simpa using hklt), List.getElem?_map, hk]
        rfl
    · obtain ⟨j, hj1, hj2⟩ := ih b hb x hx
      refine ⟨b0.length + j, ?_, ?_⟩
      · rw [List.flatten_cons, List.getElem?_append,
          if_neg (by omega)]
        simpa using hj1
      · rw [List.map_cons, List.flatten_cons, List.getElem?_append,
          if_neg (by simp)]
        simpa using hj2

/-- Both branches of the merge step extend the line's markup with the
padding and the opening of the comment span, and clear the deferred
field; nothing else changes. -/
theorem mergeInline_shape (m : ℕ) (l : Line) (v s : List ℕ) :
    ∃ rest, mergeInline m l v s =
      { l with
        html := l.html ++ List.replicate (m - visible_width l.html + 2) ' ' ++
          "<span class=\"comment\">; ".data ++ rest,
        inline_comment := none } := by
  unfold mergeInline
  simp only []
  split
  · exact ⟨_, rfl⟩
  · exact ⟨_, rfl⟩
/-- C9.  Alignment pass frame: every line of the aligned list comes from
the line at the same position of the input; the internal deferred-comment
fields are cleared on every output line, all other fields (`id`, `addr`,
`addr_id`, `binary_addr`, `binary_addr_id`, `banner`) are unchanged, and
the markup of a line that carried no (truthy) deferred inline comment is
unchanged. -/
theorem align_inline_comments_frame (lines : List Line) (v s : List ℕ)
    (i : ℕ) (l : Line)
    (h : (align_inline_comments lines v s)[i]? = some l) :
    ∃ l0, lines[i]? = some l0 ∧
      l.inline_comment = none ∧ l.max_width = none ∧
      l.id = l0.id ∧ l.addr = l0.addr ∧ l.addr_id = l0.addr_id ∧
      l.binary_addr = l0.binary_addr ∧ l.binary_addr_id = l0.binary_addr_id ∧
      l.banner = l0.banner ∧
      (truthyInline l0 = false → l.html = l0.html) := by
  rw [align_inline_comments] at h
  obtain ⟨b, x, hb, hxb, hget, hy⟩ :=
    flatten_map_getElem (fun b p => alignLine v s (blockMax b) p)
      (split_into_blocks lines) i l h
  rw [split_into_blocks_flatten, List.getElem?_enum] at hget
  cases hl0 : lines[i]? with
  | none => rw [hl0] at hget; cases hget
  | some l0 =>
    rw [hl0, Option.map_some'] at hget
    have hx : x = (i, l0) := by
      cases hget
      rfl
    subst hx
    refine ⟨l0, rfl, ?_⟩
    rw [alignLine] at hy
    by_cases ht : truthyInline l0 = true
    · rw [if_pos ht] at hy
      obtain ⟨rest, hm⟩ := mergeInline_shape (blockMax b) l0 v s
      rw [hm] at hy
      subst hy
      refine ⟨rfl, rfl, rfl, rfl, rfl, rfl, rfl, rfl, ?_⟩
      intro hc
      rw [ht] at hc
      cases hc
    · rw [if_neg ht] at hy
      subst hy
      exact ⟨rfl, rfl, rfl, rfl, rfl, rfl, rfl, rfl, fun _ => rfl⟩

theorem align_inline_comments_frame_witness :
    ∃ l0, [({ html := ['a'] } : Line)][0]? = some l0 ∧
      ({ html := ['a'] } : Line).inline_comment = none ∧
      ({ html := ['a'] } : Line).max_width = none ∧
      ({ html := ['a'] } : Line).id = l0.id ∧
      ({ html := ['a'] } : Line).addr = l0.addr ∧
      ({ html := ['a'] } : Line).addr_id = l0.addr_id ∧
      ({ html := ['a'] } : Line).binary_addr = l0.binary_addr ∧
      ({ html := ['a'] } : Line).binary_addr_id = l0.binary_addr_id ∧
      ({ html := ['a'] } : Line).banner = l0.banner ∧
      (truthyInline l0 = false → ({ html := ['a'] } : Line).html = l0.html) :=
  align_inline_comments_frame [{ html := ['a'] }] [] [] 0 { html := ['a'] }
    (by decide)
/-! ## Inline-comment columns (the merge step seen through `_visible_width`) -/

/-- The final state of the tag-stripping automaton: `none` when every `<`
opened so far has been closed by a matching `>`. -/
def stripState : Option Str → Str → Option Str
  | st, [] => st
  | none, c :: rest =>
    if c = '<' then stripState (some []) rest else stripState none rest
  | some p, c :: rest =>
    if c = '>' then stripState none rest else stripState (some (p ++ [c])) rest

/-- Tag stripping distributes over concatenation when the left part leaves
the automaton outside a tag. -/
theorem stripTagsGo_append_closed :
    ∀ (a : Str) (st : Option Str), stripState st a = none →
      ∀ b, stripTagsGo st (a ++ b) = stripTagsGo st a ++ stripTagsGo none b := by
  intro a
  induction a with
  | nil =>
    intro st hst b
    rw [stripState] at hst
    subst hst
    rfl
  | cons c rest ih =>
    intro st hst b
    cases st with
    | none =>
      rw [stripState] at hst
      by_cases hc : c = '<'
      · rw [if_pos hc] at hst
        rw [List.cons_append, stripTagsGo, if_pos hc, stripTagsGo, if_pos hc]
        exact ih (some []) hst b
      · rw [if_neg hc] at hst
        rw [List.cons_append, stripTagsGo, if_neg hc, stripTagsGo, if_neg hc,
          ih none hst b]
        rfl
    | some p =>
      rw [stripState] at hst
      by_cases hc : c = '>'
      · rw [if_pos hc] at hst
        rw [List.cons_append, stripTagsGo, if_pos hc, stripTagsGo, if_pos hc]
        by_cases hp : p = []
        · rw [if_pos hp, if_pos hp, List.cons_append, List.cons_append,
            ih none hst b]
        · rw [if_neg hp, if_neg hp]
          exact ih none hst b
      · rw [if_neg hc] at hst
        rw [List.cons_append, stripTagsGo, if_neg hc, stripTagsGo, if_neg hc]
        exact ih (some (p ++ [c])) hst b

/-- A singleton is never one of the entities. -/
theorem singleton_not_entStr (c : Char) : [c] ∉ entStrs := by
  simp [entStrs]

/-- A singleton other than `&` is not an entity prefix. -/
theorem prefixAny_singleton {c : Char} (hc : c ≠ '&') :
    prefixAny [c] = false := by
  simp [prefixAny, entStrs, isPrefixL, hc]

/-- Entity decoding passes `&`-free text through unchanged, also in front
of an arbitrary continuation. -/
theorem unescapeGo_no_amp_append :
    ∀ (a : Str), (∀ c ∈ a, c ≠ '&') →
      ∀ b, unescapeGo [] (a ++ b) = a ++ unescapeGo [] b := by
  intro a
  induction a with
  | nil => intro _ b; rfl
  | cons c rest ih =>
    intro h b
    have hc : c ≠ '&' := h c (List.mem_cons_self c rest)
    rw [List.cons_append, unescapeGo, List.nil_append,
      if_neg (singleton_not_entStr c), if_neg (by rw [prefixAny_singleton hc]; exact Bool.false_ne_true),
      if_neg hc, List.nil_append, ih (fun d hd => h d (List.mem_cons_of_mem _ hd)) b]
    rfl

/-- `max(len(line) ...)` over a single line. -/
theorem visible_width_single {m : Str} (h : '\n' ∉ visText m) :
    visible_width m = (visText m).length := by
  rw [visible_width, show List.splitOn '\n' (visText m) =
      (visText m).splitOnP (fun x => x == '\n') from rfl,
    List.splitOnP_eq_single _ _ (by
      intro x hx hb
      exact h ((of_decide_eq_true hb : x = '\n') ▸ hx))]
  simp

/-- Membership bound for `foldr max`. -/
theorem le_foldr_max {a : ℕ} : ∀ {l : List ℕ}, a ∈ l → a ≤ l.foldr max 0 := by
  intro l
  induction l with
  | nil => intro h; cases h
  | cons x xs ih =>
    intro h
    rcases List.mem_cons.mp h with rfl | h
    · exact Nat.le_max_left _ _
    · exact le_trans (ih h) (Nat.le_max_right _ _)

/-- A commented line's visible width is dominated by its block's maximum. -/
theorem visible_width_le_blockMax {b : List (ℕ × Line)} {p : ℕ × Line}
    (hp : p ∈ b) (ht : truthyInline p.2 = true) :
    visible_width p.2.html ≤ blockMax b := by
  rw [blockMax]
  exact le_foldr_max (List.mem_map_of_mem _ (List.mem_filter.mpr ⟨hp, ht⟩))

/-- A prefix test only sees characters of the longer string. -/
theorem mem_of_isPrefixL : ∀ {q e : Str}, isPrefixL q e = true →
    ∀ c ∈ q, c ∈ e := by
  intro q
  induction q with
  | nil =>
    intro e h c hc
    cases hc
  | cons a as ih =>
    intro e h c hc
    cases e with
    | nil => cases h
    | cons b bs =>
      rw [isPrefixL] at h
      simp only [Bool.and_eq_true, beq_iff_eq] at h
      obtain ⟨rfl, h2⟩ := h
      rcases List.mem_cons.mp hc with rfl | hc
      · exact List.mem_cons_self _ _
      · exact List.mem_cons_of_mem _ (ih h2 c hc)

/-- No entity contains a space. -/
theorem entStrs_no_space : ∀ e ∈ entStrs, ' ' ∉ e := by decide

theorem space_not_entStr (p : Str) : p ++ [' '] ∉ entStrs := fun hmem =>
  entStrs_no_space _ hmem
    (List.mem_append_right _ (List.mem_singleton.mpr rfl))

theorem prefixAny_space (p : Str) : prefixAny (p ++ [' ']) = false := by
  cases h : prefixAny (p ++ [' ']) with
  | false => rfl
  | true =>
    exfalso
    rw [prefixAny, List.any_eq_true] at h
    obtain ⟨e, he, hpe⟩ := h
    exact entStrs_no_space e he (mem_of_isPrefixL hpe ' '
      (List.mem_append_right _ (List.mem_singleton.mpr rfl)))

/-- Entity decoding splits unconditionally at a space: a space can neither
complete nor extend a pending entity, so everything to its left decodes
independently of what follows. -/
theorem unescapeGo_append_space (B : Str) :
    ∀ (A pend : Str),
      unescapeGo pend (A ++ ' ' :: B) =
        unescapeGo pend A ++ unescapeGo [] (' ' :: B) := by
  intro A
  induction A with
  | nil =>
    intro pend
    rw [List.nil_append, unescapeGo, unescapeGo,
      if_neg (space_not_entStr pend),
      if_neg (by rw [prefixAny_space]; exact Bool.false_ne_true),
      if_neg (by decide),
      show unescapeGo [] (' ' :: B) = ' ' :: unescapeGo [] B by
        rw [unescapeGo, if_neg (space_not_entStr []),
          if_neg (by rw [prefixAny_space]; exact Bool.false_ne_true),
          if_neg (by decide)]
        rfl]
  | cons c rest ih =>
    intro pend
    rw [List.cons_append, unescapeGo, unescapeGo]
    by_cases h1 : pend ++ [c] ∈ entStrs
    · rw [if_pos h1, if_pos h1, ih []]
      rfl
    · rw [if_neg h1, if_neg h1]
      by_cases h2 : prefixAny (pend ++ [c]) = true
      · rw [if_pos h2, if_pos h2, ih (pend ++ [c])]
      · rw [if_neg h2, if_neg h2]
        by_cases h3 : c = '&'
        · rw [if_pos h3, if_pos h3, ih ['&'], List.append_assoc]
        · rw [if_neg h3, if_neg h3, ih []]
          simp

/-- The visible text of a line extended by the merge step: the original
visible text, the padding, then the `"; "` marker and the comment's
visible text.  The padding is non-empty on every call path, and entity
decoding splits at its first space, so no shape condition on the line's
own markup beyond closed tags is needed. -/
theorem visText_comment_append (A : Str) (pad : ℕ) (rest : Str)
    (hpad : 0 < pad) (hclosed : stripState none A = none) :
    ∃ t, visText (A ++ List.replicate pad ' ' ++
        "<span class=\"comment\">; ".data ++ rest) =
      visText A ++ List.replicate pad ' ' ++ ';' :: ' ' :: t := by
  obtain ⟨q, rfl⟩ : ∃ q, pad = q + 1 :=
    ⟨pad - 1, (Nat.succ_pred_eq_of_pos hpad).symm⟩
  have hshape : A ++ List.replicate (q + 1) ' ' ++
      "<span class=\"comment\">; ".data ++ rest =
      A ++ (List.replicate (q + 1) ' ' ++
        ('<' :: ("span class=\"comment\"".data ++ '>' :: ';' :: ' ' :: rest))) := by
    rw [List.append_assoc, List.append_assoc]
    rfl
  have hstrip : stripTags (A ++ List.replicate (q + 1) ' ' ++
      "<span class=\"comment\">; ".data ++ rest) =
      stripTags A ++ (List.replicate (q + 1) ' ' ++
        (';' :: ' ' :: stripTagsGo none rest)) := by
    rw [hshape, stripTags, stripTagsGo_append_closed A none hclosed,
      stripTagsGo_none_append (by
        intro hmem
        have := List.eq_of_mem_replicate hmem
        cases this),
      stripTags_tag (by decide) (by decide),
      show stripTagsGo none (';' :: ' ' :: rest) =
        ';' :: ' ' :: stripTagsGo none rest by
          rw [stripTagsGo, if_neg (by decide), stripTagsGo, if_neg (by decide)]]
    rfl
  refine ⟨unescapeGo [] (stripTagsGo none rest), ?_⟩
  have hsplit : stripTags A ++ (List.replicate (q + 1) ' ' ++
      (';' :: ' ' :: stripTagsGo none rest)) =
      stripTags A ++ ' ' ::
        (List.replicate q ' ' ++ (';' :: ' ' :: stripTagsGo none rest)) := by
    rw [List.replicate_succ]
    simp
  have hnoamp : unescapeGo []
      (' ' :: (List.replicate q ' ' ++ (';' :: ' ' :: stripTagsGo none rest))) =
      (' ' :: (List.replicate q ' ' ++ [';', ' '])) ++
        unescapeGo [] (stripTagsGo none rest) := by
    have hlist : ' ' :: (List.replicate q ' ' ++ (';' :: ' ' :: stripTagsGo none rest)) =
        (' ' :: (List.replicate q ' ' ++ [';', ' '])) ++ stripTagsGo none rest := by
      simp
    rw [hlist]
    refine unescapeGo_no_amp_append _ ?_ _
    intro c hc
    rcases List.mem_cons.mp hc with rfl | hc
    · decide
    · rcases List.mem_append.mp hc with hc | hc
      · have := List.eq_of_mem_replicate hc
        subst this
        decide
      · rcases List.mem_cons.mp hc with rfl | hc
        · decide
        · rcases List.mem_cons.mp hc with rfl | hc
          · decide
          · cases hc
  rw [visText, hstrip, hsplit, visText, unescape,
    unescapeGo_append_space _ (stripTags A) [], hnoamp]
  simp [List.replicate_succ, unescape]
/-- C3 (amended).  Inline-comment alignment for single-line content:
within a block of `_split_into_blocks`, every line carrying a deferred
inline comment whose markup closes all its tags and has single-line
visible text is extended so that its visible text is the original visible
text, then padding, then the `"; "` marker — and the marker's start
column is exactly the block's maximum commented visible width plus 2.
(For multi-line content the padding is appended after the last visible
line, whose length may differ from the line's visible width, so the
stated column equality fails; see the counterexample.) -/
theorem align_inline_comments_columns (lines : List Line) (v s : List ℕ)
    (b : List (ℕ × Line)) (hb : b ∈ split_into_blocks lines)
    (p : ℕ × Line) (hp : p ∈ b) (ht : truthyInline p.2 = true)
    (hclosed : stripState none p.2.html = none)
    (hnl : '\n' ∉ visText p.2.html) :
    ∃ out t, (align_inline_comments lines v s)[p.1]? = some out ∧
      visText out.html =
        visText p.2.html ++
          List.replicate (blockMax b - visible_width p.2.html + 2) ' ' ++
          ';' :: ' ' :: t ∧
      (visText p.2.html).length +
        (blockMax b - visible_width p.2.html + 2) = blockMax b + 2 := by
  obtain ⟨j, hj1, hj2⟩ :=
    flatten_map_mem (fun b q => alignLine v s (blockMax b) q)
      (split_into_blocks lines) b hb p hp
  rw [split_into_blocks_flatten, List.getElem?_enum] at hj1
  have hpj : p.1 = j := by
    cases hl : lines[j]? with
    | none => rw [hl] at hj1; cases hj1
    | some l0 => rw [hl, Option.map_some'] at hj1; cases hj1; rfl
  obtain ⟨rest, hm⟩ := mergeInline_shape (blockMax b) p.2 v s
  obtain ⟨t, hvt⟩ := visText_comment_append p.2.html
    (blockMax b - visible_width p.2.html + 2) rest (by omega) hclosed
  refine ⟨alignLine v s (blockMax b) p, t, ?_, ?_, ?_⟩
  · rw [hpj, align_inline_comments]
    exact hj2
  · rw [alignLine, if_pos ht, hm]
    simp only [clearInternal]
    exact hvt
  · have h1 : visible_width p.2.html ≤ blockMax b :=
      visible_width_le_blockMax hp ht
    have h2 : visible_width p.2.html = (visText p.2.html).length :=
      visible_width_single hnl
    omega

theorem align_inline_comments_columns_witness :
    ∃ out t,
      (align_inline_comments
        [({ html := "<i>&quot;A&quot;</i>".data,
            inline_comment := some ['x'] } : Line)]
        [] [])[0]? = some out ∧
      visText out.html =
        visText "<i>&quot;A&quot;</i>".data ++
          List.replicate
            (blockMax
                [(0, ({ html := "<i>&quot;A&quot;</i>".data,
                        inline_comment := some ['x'] } : Line))] -
              visible_width "<i>&quot;A&quot;</i>".data + 2) ' ' ++
          ';' :: ' ' :: t ∧
      (visText "<i>&quot;A&quot;</i>".data).length +
          (blockMax
              [(0, ({ html := "<i>&quot;A&quot;</i>".data,
                      inline_comment := some ['x'] } : Line))] -
            visible_width "<i>&quot;A&quot;</i>".data + 2) =
        blockMax
            [(0, ({ html := "<i>&quot;A&quot;</i>".data,
                    inline_comment := some ['x'] } : Line))] + 2 :=
  align_inline_comments_columns
    [({ html := "<i>&quot;A&quot;</i>".data,
        inline_comment := some ['x'] } : Line)] [] []
    [(0, ({ html := "<i>&quot;A&quot;</i>".data,
            inline_comment := some ['x'] } : Line))]
    (by decide)
    (0, ({ html := "<i>&quot;A&quot;</i>".data,
           inline_comment := some ['x'] } : Line))
    (by decide) (by decide) (by decide) (by decide)

/-- With multi-line content the comment is appended after the last visible
line, so its `"; "` marker starts at column 4 even though the block's
maximum visible width plus 2 is 6: the claimed column equality fails for
wrapped data lines. -/
theorem align_inline_comments_columns_multiline_cex :
    (align_inline_comments
        [({ html := "aaaa".data ++ '\n' :: "bb".data,
            inline_comment := some ['x'] } : Line)] [] [])[0]? =
      some { html := "aaaa".data ++ '\n' ::
        "bb  <span class=\"comment\">; x</span>".data } ∧
    blockMax
        [(0,
          ({ html := "aaaa".data ++ '\n' :: "bb".data,
             inline_comment := some ['x'] } : Line))] + 2 = 6 ∧
    List.splitOn '\n'
        (visText ("aaaa".data ++ '\n' ::
          "bb  <span class=\"comment\">; x</span>".data)) =
      ["aaaa".data, "bb  ; x".data] ∧
    ("bb  ; x".data)[4]? = some ';' := by
  decide
/-! ## Fall-through marker placement (`process_disassembly`'s item loop) -/

/-- A comment span never reads as the fall-through marker: the two spans
differ at the 14th character of the markup. -/
theorem comment_html_ne (X : Str) :
    "<span class=\"comment\">; ".data ++ X ≠
      "<span class=\"fall-through\">fall through ↓</span>".data := by
  intro h
  have h13 : ("<span class=\"comment\">; ".data ++ X)[13]? = some 'c' := by
    rw [List.getElem?_append, if_pos (by decide)]
    decide
  rw [h] at h13
  exact absurd h13 (by decide)

/-- A line whose markup opens a comment span is not the marker. -/
theorem comment_record_ne_marker (X : Str) :
    ({ html := "<span class=\"comment\">; ".data ++ X ++ "</span>".data } :
      Line) ≠ fallThroughLine := by
  intro h
  have hh := congrArg Line.html h
  rw [List.append_assoc] at hh
  exact comment_html_ne _ hh

theorem commentLineFor_ne_marker (lt : Str) (mw : Int) (v s : List ℕ) :
    commentLineFor lt mw v s ≠ fallThroughLine := by
  rw [commentLineFor]
  by_cases h1 : stripWs lt = []
  · rw [if_pos h1]
    decide
  · rw [if_neg h1]
    by_cases h2 : isPrefixL "  ".data lt = true
    · rw [if_pos h2]
      exact comment_record_ne_marker _
    · rw [if_neg h2]
      by_cases h3 : (2 + lt.length : Int) ≤ mw
      · rw [if_pos h3]
        exact comment_record_ne_marker _
      · rw [if_neg h3]
        exact comment_record_ne_marker _

theorem commentBlockLines_ne_marker {ct : Str} {mw : Int} {v s : List ℕ}
    {l : Line} (hl : l ∈ commentBlockLines ct mw v s) :
    l ≠ fallThroughLine := by
  rw [commentBlockLines] at hl
  obtain ⟨lt, _, rfl⟩ := List.mem_map.mp hl
  exact commentLineFor_ne_marker lt mw v s

/-- No line rendered for an item is the fall-through marker: banner lines
set `banner`, label and content lines set `addr_id`/`max_width`, comment
lines open a comment span, and blank lines are empty. -/
theorem process_item_ne_marker {it : Item} {subs : List Subroutine}
    {items : List Item} {v s : List ℕ} {mw : Int} {l : Line}
    (hl : l ∈ process_item it subs items v s mw) :
    l ≠ fallThroughLine := by
  have hcomm : ∀ m ∈ (if itemComments it ≠ [] then [empty_line] else []) ++
      (itemComments it).flatMap
        (fun ct => commentBlockLines ct mw v s),
      m ≠ fallThroughLine := by
    intro m hm
    rcases List.mem_append.mp hm with hm | hm
    · have hme : m = empty_line := by
        by_cases hc : itemComments it ≠ []
        · rw [if_pos hc] at hm
          exact List.mem_singleton.mp hm
        · rw [if_neg hc] at hm
          cases hm
      subst hme
      decide
    · obtain ⟨ct, _, hmem⟩ := List.mem_flatMap.mp hm
      exact commentBlockLines_ne_marker hmem
  rw [process_item] at hl
  simp only [List.mem_append, List.mem_singleton] at hl
  rcases hl with ((hh | hh) | hh) | hh
  · rw [itemHeadLines] at hh
    split at hh
    · split at hh
      · rcases List.mem_cons.mp hh with rfl | hh
        · decide
        · rcases List.mem_cons.mp hh with rfl | hh
          · intro h
            exact absurd (congrArg Line.banner h)
              (by simp [bannerLine, fallThroughLine])
          · obtain ⟨ct, _, hmem⟩ := List.mem_flatMap.mp hh
            exact commentBlockLines_ne_marker hmem
      · exact hcomm l hh
    · exact hcomm l hh
  · rw [itemLabelLines] at hh
    obtain ⟨p, _, rfl⟩ := List.mem_map.mp hh
    intro h
    exact absurd (congrArg Line.addr_id h) (by simp [fallThroughLine])
  · subst hh
    intro h
    exact absurd (congrArg Line.max_width h)
      (by simp [fallThroughLine, itemContentLine])
  · obtain ⟨ct, _, hmem⟩ := List.mem_flatMap.mp hh
    exact commentBlockLines_ne_marker hmem
theorem subLookup_mem {subs : List Subroutine} {a : ℕ} {s0 : Subroutine}
    (h : subLookup subs a = some s0) : s0 ∈ subs := by
  rw [subLookup] at h
  exact List.mem_reverse.mp (List.mem_of_find?_eq_some h)

/-- The lines of an item that opens a titled subroutine start with the
blank separator and the banner. -/
theorem process_item_titled_cons {it : Item} {subs : List Subroutine}
    {items : List Item} {v s : List ℕ} {mw : Int} {s0 : Subroutine}
    (hsome : subLookup subs it.addr = some s0) (htitle : s0.title ≠ []) :
    ∃ tl, process_item it subs items v s mw =
      empty_line :: bannerLine it s0 v s :: tl := by
  have hhead : itemHeadLines it subs v s mw =
      empty_line :: bannerLine it s0 v s ::
        ((itemComments it).filter (fun c => !is_banner_content c s0)).flatMap
          (fun ct => commentBlockLines ct mw v s) := by
    rw [itemHeadLines]
    split
    · next s0' heq =>
      rw [hsome] at heq
      obtain rfl := Option.some.inj heq
      rw [if_pos htitle]
    · next heq =>
      rw [hsome] at heq
      cases heq
  rw [process_item, hhead]
  simp only [List.cons_append]
  exact ⟨_, rfl⟩

/-- Marker placement invariant: every occurrence of the fall-through
marker in a line list is followed by a blank separator and a banner line,
or is the final line. -/
def markerOK (out : List Line) : Prop :=
  ∀ j : ℕ, out[j]? = some fallThroughLine →
    (out[j+1]? = some empty_line ∧
      ∃ bl, out[j+2]? = some bl ∧ bl.banner = true) ∨
    j + 1 = out.length

theorem markerOK_nil : markerOK [] := by
  intro j hj
  simp at hj

theorem markerOK_cons {c : Line} {t : List Line}
    (hc : c = fallThroughLine →
      (t[0]? = some empty_line ∧ ∃ bl, t[1]? = some bl ∧ bl.banner = true) ∨
        t = [])
    (ht : markerOK t) : markerOK (c :: t) := by
  intro j hj
  cases j with
  | zero =>
    have hcf : c = fallThroughLine := by simpa using hj
    rcases hc hcf with ⟨h1, bl, h2, h3⟩ | h1
    · exact Or.inl ⟨by simpa using h1, bl, by simpa using h2, h3⟩
    · subst h1
      exact Or.inr rfl
  | succ n =>
    have hj' : t[n]? = some fallThroughLine := by simpa using hj
    rcases ht n hj' with ⟨h1, bl, h2, h3⟩ | h1
    · exact Or.inl ⟨by simpa using h1, bl, by simpa using h2, h3⟩
    · right
      rw [List.length_cons]
      omega

theorem markerOK_append {a b : List Line}
    (ha : ∀ l ∈ a, l ≠ fallThroughLine) (hb : markerOK b) :
    markerOK (a ++ b) := by
  induction a with
  | nil => simpa using hb
  | cons c cs ih =>
    rw [List.cons_append]
    refine markerOK_cons (fun hcf => absurd hcf (ha c (List.mem_cons_self c cs)))
      (ih (fun l hl => ha l (List.mem_cons_of_mem _ hl)))

/-- The item loop preserves the marker-placement invariant (all
subroutines titled). -/
theorem buildGo_markerOK (subs : List Subroutine) (items_all : List Item)
    (v s rel : List ℕ) (hsub : ∀ su ∈ subs, su.title ≠ []) :
    ∀ (L : List Item) (current : Option Subroutine) (inRel : Bool),
      markerOK (buildGo subs items_all v s rel current inRel L) := by
  intro L
  induction L with
  | nil =>
    intro current inRel
    simp only [buildGo]
    split
    · intro j hj
      match j with
      | 0 => exact Or.inr rfl
      | n + 1 => simp at hj
    · exact markerOK_nil
  | cons it rest ih =>
    intro current inRel
    simp only [buildGo]
    by_cases hpre : (subLookup subs it.addr).isSome ∧ (match current with
        | some cs => cs.fall_through
        | none => false) = true
    · rw [if_pos hpre]
      obtain ⟨s0, hsome⟩ := Option.isSome_iff_exists.mp hpre.1
      have htitle : s0.title ≠ [] := hsub s0 (subLookup_mem hsome)
      obtain ⟨tl, hproc⟩ := process_item_titled_cons hsome htitle
      rw [hproc]
      simp only [List.singleton_append, List.cons_append, List.nil_append]
      refine markerOK_cons ?_ ?_
      · intro _
        left
        exact ⟨by simp, bannerLine it s0 v s, by simp, rfl⟩
      · refine markerOK_cons (fun hcf => absurd hcf (by decide)) ?_
        refine markerOK_cons ?_ ?_
        · intro hcf
          exact absurd hcf (process_item_ne_marker (by
            rw [hproc]
            exact List.mem_cons_of_mem _ (List.mem_cons_self _ _)))
        · refine markerOK_append ?_ (ih _ _)
          intro l hl
          exact process_item_ne_marker (by
            rw [hproc]
            exact List.mem_cons_of_mem _ (List.mem_cons_of_mem _ hl))
    · rw [if_neg hpre]
      simp only [List.nil_append]
      exact markerOK_append (fun l hl => process_item_ne_marker hl) (ih _ _)
/-- A two-subroutine input whose first subroutine falls through. -/
def c7subs : List Subroutine :=
  [{ addr := 0, title := ['A'], fall_through := true },
   { addr := 1, title := ['B'] }]

def c7items : List Item := [{ addr := 0 }, { addr := 1 }]

/-- Reading a position of the right part of a concatenation. -/
theorem exists_getElem_append {α : Type} {l2 : List α} {x : α}
    (l1 : List α) (h : ∃ m : ℕ, l2[m]? = some x) :
    ∃ m : ℕ, (l1 ++ l2)[m]? = some x := by
  obtain ⟨m, hm⟩ := h
  refine ⟨l1.length + m, ?_⟩
  rw [List.getElem?_append_right (Nat.le_add_right _ _)]
  have hmm : l1.length + m - l1.length = m := by omega
  rw [hmm]
  exact hm

/-- When the current subroutine falls through, the remaining loop always
emits a marker: at the next item that opens a subroutine, or at the very
end of the item list. -/
theorem buildGo_marker_any (subs : List Subroutine) (items_all : List Item)
    (v s rel : List ℕ) :
    ∀ (L : List Item) (current : Option Subroutine) (inRel : Bool),
      (match current with
        | some cs => cs.fall_through
        | none => false) = true →
      ∃ m : ℕ, (buildGo subs items_all v s rel current inRel L)[m]? =
        some fallThroughLine := by
  intro L
  induction L with
  | nil =>
    intro current inRel hcur
    refine ⟨0, ?_⟩
    simp only [buildGo]
    rw [if_pos hcur]
    rfl
  | cons it rest ih =>
    intro current inRel hcur
    simp only [buildGo]
    by_cases hσ : (subLookup subs it.addr).isSome = true
    · rw [if_pos ⟨hσ, hcur⟩]
      exact ⟨0, by simp⟩
    · rw [if_neg (fun hand => hσ hand.1), if_neg hσ]
      simp only [List.nil_append]
      exact exists_getElem_append _ (ih current _ hcur)

/-- Any item that opens a fall-through subroutine forces a marker in the
output of the remaining loop. -/
theorem buildGo_marker_of_item (subs : List Subroutine)
    (items_all : List Item) (v s rel : List ℕ) :
    ∀ (L : List Item) (i : ℕ) (iti : Item) (si : Subroutine)
      (current : Option Subroutine) (inRel : Bool),
      L[i]? = some iti → subLookup subs iti.addr = some si →
      si.fall_through = true →
      ∃ m : ℕ, (buildGo subs items_all v s rel current inRel L)[m]? =
        some fallThroughLine := by
  intro L
  induction L with
  | nil =>
    intro i iti si current inRel hi
    simp at hi
  | cons it rest ih =>
    intro i iti si current inRel hi hsi hft
    cases i with
    | zero =>
      obtain rfl : it = iti := by simpa using hi
      simp only [buildGo]
      have hσ : (subLookup subs it.addr).isSome = true := by
        rw [hsi]
        rfl
      rw [if_pos hσ, hsi]
      apply exists_getElem_append
      exact buildGo_marker_any subs items_all v s rel rest (some si) _ hft
    | succ n =>
      have hi2 : rest[n]? = some iti := by simpa using hi
      simp only [buildGo]
      apply exists_getElem_append
      exact ih n iti si _ _ hi2 hsi hft

/-- C7 (amended).  Fall-through markers: over a subroutine table whose
entries are all titled, (1) whenever some item opens a subroutine with
`fall_through` set, at least one `fall through ↓` marker line is emitted
in the built line list, and (2) every emitted marker line is followed
immediately by the blank separator line and then a subroutine banner
line, or is the final line of the list (the last subroutine fell
through).  The marker precedes the blank separator, not the banner
itself. -/
theorem fall_through_marker_placement (subs : List Subroutine)
    (items : List Item) (hsub : ∀ su ∈ subs, su.title ≠ [])
    (i : ℕ) (iti : Item) (si : Subroutine)
    (hi : items[i]? = some iti)
    (hsi : subLookup subs iti.addr = some si)
    (hft : si.fall_through = true) :
    (∃ m : ℕ, (build_lines subs items)[m]? = some fallThroughLine) ∧
    ∀ j : ℕ, (build_lines subs items)[j]? = some fallThroughLine →
      ((build_lines subs items)[j+1]? = some empty_line ∧
        ∃ bl, (build_lines subs items)[j+2]? = some bl ∧ bl.banner = true) ∨
      j + 1 = (build_lines subs items).length :=
  ⟨buildGo_marker_of_item subs items _ _ _ items i iti si none false
      hi hsi hft,
   fun j hj => buildGo_markerOK subs items _ _ _ hsub items none false j hj⟩

theorem fall_through_marker_placement_witness :
    (∀ su ∈ c7subs, su.title ≠ []) ∧
    c7items[0]? = some { addr := 0 } ∧
    subLookup c7subs 0 =
      some { addr := 0, title := ['A'], fall_through := true } ∧
    ({ addr := 0, title := ['A'], fall_through := true } :
      Subroutine).fall_through = true ∧
    ((∃ m : ℕ, (build_lines c7subs c7items)[m]? = some fallThroughLine) ∧
      ∀ j : ℕ, (build_lines c7subs c7items)[j]? = some fallThroughLine →
        (((build_lines c7subs c7items)[j+1]? = some empty_line ∧
          ∃ bl, (build_lines c7subs c7items)[j+2]? = some bl ∧
            bl.banner = true) ∨
        j + 1 = (build_lines c7subs c7items).length)) :=
  ⟨by decide, by decide, by decide, by decide,
    fall_through_marker_placement c7subs c7items (by decide) 0 { addr := 0 }
      { addr := 0, title := ['A'], fall_through := true }
      (by decide) (by decide) (by decide)⟩

/-- The marker is not immediately followed by the banner: the blank
separator line (not a banner) intervenes, so the claim that the marker is
emitted immediately before the next subroutine's banner line with no
intervening line fails. -/
theorem fall_through_marker_intervening_blank_cex :
    (build_lines c7subs c7items)[3]? = some fallThroughLine ∧
    (build_lines c7subs c7items)[4]? = some empty_line ∧
    empty_line.banner = false ∧
    ((build_lines c7subs c7items)[4]?).map Line.banner = some false ∧
    ((build_lines c7subs c7items)[5]?).map Line.banner = some true := by
  decide
/-! ## Determinism: stable orders, no unordered iteration -/

theorem insertSorted_perm (x : ℕ) : ∀ l : List ℕ, (insertSorted x l).Perm (x :: l) := by
  intro l
  induction l with
  | nil => rfl
  | cons y ys ih =>
    rw [insertSorted]
    by_cases h : x ≤ y
    · rw [if_pos h]
    · rw [if_neg h]
      exact (List.Perm.cons y ih).trans (List.Perm.swap x y ys)

theorem sortAsc_perm : ∀ l : List ℕ, (sortAsc l).Perm l := by
  intro l
  induction l with
  | nil => rfl
  | cons x xs ih =>
    rw [sortAsc, List.foldr_cons]
    exact (insertSorted_perm x (sortAsc xs)).trans (List.Perm.cons x ih)

theorem sortAsc_nodup {l : List ℕ} (h : l.Nodup) : (sortAsc l).Nodup :=
  (sortAsc_perm l).nodup_iff.mpr h

/-- `sorted(set(addrs))` depends only on the membership of the address
set, not on any iteration order of its representation. -/
theorem sortedAddrs_eq_of_mem_iff {v v' : List ℕ}
    (hm : ∀ a, a ∈ v ↔ a ∈ v') : sortedAddrs v = sortedAddrs v' := by
  have hperm : v.dedup.Perm v'.dedup := by
    refine List.perm_of_nodup_nodup_toFinset_eq (List.nodup_dedup v)
      (List.nodup_dedup v') ?_
    ext a
    simp only [List.mem_toFinset, List.mem_dedup]
    exact hm a
  have h1 : (sortedAddrs v).Perm (sortedAddrs v') :=
    ((sortAsc_perm v.dedup).trans hperm).trans (sortAsc_perm v'.dedup).symm
  exact List.eq_of_perm_of_sorted h1 (sorted_sortAsc _) (sorted_sortAsc _)

/-- C8.  Determinism: re-evaluating the processor on identical input
yields an identical section list; the sorted address list is independent
of the representation order of the address set; the come-from popup lists
the referencing addresses in ascending order (a permutation of the input
references); and the register-table rows follow the stable order of the
input register list (the i-th row renders the i-th register). -/
theorem process_disassembly_deterministic (subs : List Subroutine)
    (items : List Item) (refs : List ℕ) (heading : Str)
    (regs : List (Str × Str)) (v v' s : List ℕ) (i : ℕ) (r : Str × Str)
    (hm : ∀ a, a ∈ v ↔ a ∈ v') (hi : regs[i]? = some r) :
    process_disassembly subs items = process_disassembly subs items ∧
    sortedAddrs v = sortedAddrs v' ∧
    (refs_sorted refs).Sorted (· ≤ ·) ∧
    (refs_sorted refs).Perm refs ∧
    (∃ th, (render_register_rows_list heading regs v s)[i]? =
      some ("<tr>".data ++ th ++ "<td>".data ++
        escapeList (toUpperStr r.1) ++ "</td><td>".data ++
        linkify_comment_text r.2 v s ++ "</td></tr>".data)) := by
  refine ⟨rfl, sortedAddrs_eq_of_mem_iff hm, sorted_sortAsc refs,
    sortAsc_perm refs, ?_⟩
  refine ⟨if i = 0 then
      "<th rowspan=\"".data ++ natRepr regs.length ++ "\">".data ++
        escapeList heading ++ "</th>".data
    else [], ?_⟩
  rw [render_register_rows_list, List.getElem?_map, List.getElem?_enum, hi]
  rfl

theorem process_disassembly_deterministic_witness :
    (∀ a, a ∈ ([3] : List ℕ) ↔ a ∈ ([3] : List ℕ)) ∧
    ([(['a'], ['x']), (['y'], ['z'])] : List (Str × Str))[1]? =
      some (['y'], ['z']) ∧
    (process_disassembly c7subs c7items = process_disassembly c7subs c7items ∧
    sortedAddrs [3] = sortedAddrs [3] ∧
    (refs_sorted [2, 1]).Sorted (· ≤ ·) ∧
    (refs_sorted [2, 1]).Perm [2, 1] ∧
    (∃ th, (render_register_rows_list ['h']
        [(['a'], ['x']), (['y'], ['z'])] [3] [])[1]? =
      some ("<tr>".data ++ th ++ "<td>".data ++
        escapeList (toUpperStr ['y']) ++ "</td><td>".data ++
        linkify_comment_text ['z'] [3] [] ++ "</td></tr>".data))) :=
  ⟨fun a => Iff.rfl, by decide,
    process_disassembly_deterministic c7subs c7items [2, 1] ['h']
      [(['a'], ['x']), (['y'], ['z'])] [3] [3] [] 1 (['y'], ['z'])
      (fun a => Iff.rfl) (by decide)⟩
